import Mathlib

/-!
Verification development for the Zeidy-D manifest builder.

The repository contains two revisions of a directory-scanning script that
builds a JSON manifest of a `Files/` content tree:

* `src/build-manifest.js` — the lenient / auto-rename revision: multiple PDFs
  in a leaf produce a warning and the first listed PDF is used; a mismatched
  MP3 companion is renamed automatically and a rename failure is a warning.
* the interactive / strict revision (second document of `src/unnamed/part_000`):
  multiple PDFs or multiple MP3s abort the run with `process.exit(1)`; a
  mismatched MP3 triggers a terminal prompt (`y`/`n`/`q`), `q`/`quit` aborts
  with `process.exit(0)`, and a failed rename aborts with `process.exit(1)`.

The shallow embedding below models file names as lists of characters, a
directory as a list of named entries (the listing order is part of the model,
since `fs.readdirSync` order is observable in the leaf-file handling), and the
two scanners as functions over that model.  Real directory listings never
repeat a name; the few theorems that need this carry an explicit
well-formedness hypothesis.
-/

namespace ZeidyD

/-- A file or directory name, as the list of its characters. -/
abbrev Name := List Char

/-- `str.toLowerCase()` on a name (ASCII case folding via `Char.toLower`). -/
def lowerName (n : Name) : Name := n.map Char.toLower

/-- The literal suffix `".pdf"` used by `file.toLowerCase().endsWith(".pdf")`. -/
def pdfSuffix : Name := ".pdf".toList

/-- The literal suffix `".mp3"` used by `file.toLowerCase().endsWith(".mp3")`. -/
def mp3Suffix : Name := ".mp3".toList

/-- `file.toLowerCase().endsWith(".pdf")` — the primary-document filter. -/
def isPdfName (n : Name) : Bool := pdfSuffix.isSuffixOf (lowerName n)

/-- `file.toLowerCase().endsWith(".mp3")` — the secondary-audio filter. -/
def isMp3Name (n : Name) : Bool := mp3Suffix.isSuffixOf (lowerName n)

/-- The metadata file name `"meta.json"`. -/
def metaName : Name := "meta.json".toList

/-- JavaScript `String.prototype.replace` with a string pattern: replaces the
first occurrence of `pat` (scanning left to right), or returns the string
unchanged when `pat` does not occur.  Used as `pdfFile.replace(".pdf", ".mp3")`;
the pattern is never empty there. -/
def replaceFirst : Name → Name → Name → Name
  | [], _, _ => []
  | c :: rest, pat, rep =>
    if pat.isPrefixOf (c :: rest) then rep ++ List.drop pat.length (c :: rest)
    else c :: replaceFirst rest pat rep

/-- `pdfFile.replace(".pdf", ".mp3")` — the expected name of the MP3 companion. -/
def expectedMp3Name (pdfFile : Name) : Name :=
  replaceFirst pdfFile pdfSuffix mp3Suffix

/-- Whether `pat` occurs as a contiguous run inside `s` (JavaScript
`s.indexOf(pat) >= 0`). -/
def hasSub : Name → Name → Bool
  | [], pat => pat.isEmpty
  | c :: rest, pat => pat.isPrefixOf (c :: rest) || hasSub rest pat

/-- One entry of a directory listing: a plain file or a subdirectory with its
own listing.  File contents are irrelevant to the scanner, so only names and
the tree shape are modelled. -/
inductive Entry where
  | file (name : Name)
  | dir (name : Name) (children : List Entry)

/-- The name under which an entry appears in its directory. -/
def entryName : Entry → Name
  | .file n => n
  | .dir n _ => n

/-- `dirent.isDirectory()` / `fs.statSync(p).isDirectory()`. -/
def isDirE : Entry → Bool
  | .file _ => false
  | .dir _ _ => true

mutual

def decEqE : (a b : Entry) → Decidable (a = b)
  | .file n, .file m =>
    match decEq n m with
    | isTrue h => isTrue (by rw [h])
    | isFalse h => isFalse (by intro hh; cases hh; exact h rfl)
  | .file _, .dir _ _ => isFalse (by intro hh; exact Entry.noConfusion hh)
  | .dir _ _, .file _ => isFalse (by intro hh; exact Entry.noConfusion hh)
  | .dir n cs, .dir m ds =>
    match decEq n m, decEqEL cs ds with
    | isTrue h₁, isTrue h₂ => isTrue (by rw [h₁, h₂])
    | isFalse h₁, _ => isFalse (by intro hh; cases hh; exact h₁ rfl)
    | _, isFalse h₂ => isFalse (by intro hh; cases hh; exact h₂ rfl)

def decEqEL : (a b : List Entry) → Decidable (a = b)
  | [], [] => isTrue rfl
  | [], _ :: _ => isFalse (by intro hh; exact List.noConfusion hh)
  | _ :: _, [] => isFalse (by intro hh; exact List.noConfusion hh)
  | a :: as, b :: bs =>
    match decEqE a b, decEqEL as bs with
    | isTrue h₁, isTrue h₂ => isTrue (by rw [h₁, h₂])
    | isFalse h₁, _ => isFalse (by intro hh; cases hh; exact h₁ rfl)
    | _, isFalse h₂ => isFalse (by intro hh; cases hh; exact h₂ rfl)

end

instance : DecidableEq Entry := decEqE

/-- A manifest value: `null` (leaf with no PDF), a PDF file name (leaf), or a
nested object (branch), with its keys in insertion order — exactly the three
shapes `result[entry]` takes in the source. -/
inductive MNode where
  | nullLeaf
  | leaf (pdfFile : Name)
  | branch (children : List (Name × MNode))

mutual

def decEqM : (a b : MNode) → Decidable (a = b)
  | .nullLeaf, .nullLeaf => isTrue rfl
  | .nullLeaf, .leaf _ => isFalse (by intro hh; exact MNode.noConfusion hh)
  | .nullLeaf, .branch _ => isFalse (by intro hh; exact MNode.noConfusion hh)
  | .leaf _, .nullLeaf => isFalse (by intro hh; exact MNode.noConfusion hh)
  | .leaf n, .leaf m =>
    match decEq n m with
    | isTrue h => isTrue (by rw [h])
    | isFalse h => isFalse (by intro hh; cases hh; exact h rfl)
  | .leaf _, .branch _ => isFalse (by intro hh; exact MNode.noConfusion hh)
  | .branch _, .nullLeaf => isFalse (by intro hh; exact MNode.noConfusion hh)
  | .branch _, .leaf _ => isFalse (by intro hh; exact MNode.noConfusion hh)
  | .branch cs, .branch ds =>
    match decEqML cs ds with
    | isTrue h => isTrue (by rw [h])
    | isFalse h => isFalse (by intro hh; cases hh; exact h rfl)

def decEqML : (a b : List (Name × MNode)) → Decidable (a = b)
  | [], [] => isTrue rfl
  | [], _ :: _ => isFalse (by intro hh; exact List.noConfusion hh)
  | _ :: _, [] => isFalse (by intro hh; exact List.noConfusion hh)
  | (n₁, v₁) :: as, (n₂, v₂) :: bs =>
    match decEq n₁ n₂, decEqM v₁ v₂, decEqML as bs with
    | isTrue h₁, isTrue h₂, isTrue h₃ => isTrue (by rw [h₁, h₂, h₃])
    | isFalse h₁, _, _ => isFalse (by intro hh; cases hh; exact h₁ rfl)
    | _, isFalse h₂, _ => isFalse (by intro hh; cases hh; exact h₂ rfl)
    | _, _, isFalse h₃ => isFalse (by intro hh; cases hh; exact h₃ rfl)

end

instance : DecidableEq MNode := decEqM

/-- Lexicographic order on names by character code point, the order in which
JavaScript's default `Array.prototype.sort()` compares strings. -/
def nameLe : Name → Name → Bool
  | [], _ => true
  | _ :: _, [] => false
  | a :: as, b :: bs => if a = b then nameLe as bs else decide (a < b)

/-- `nameLe` as a relation on names. -/
def nameLeP (a b : Name) : Prop := nameLe a b = true

instance : DecidableRel nameLeP := fun _ _ => by unfold nameLeP; infer_instance

/-- Entries compared by name, the order used to sort the subdirectory list. -/
def entryLeP (e₁ e₂ : Entry) : Prop := nameLe (entryName e₁) (entryName e₂) = true

instance : DecidableRel entryLeP := fun _ _ => by unfold entryLeP; infer_instance

/-- `.sort()` on the subdirectory list.  JavaScript's sort produces a sorted
permutation of its input; `List.insertionSort` is such a sort (and is stable,
like the engines' implementations). -/
def sortEntries (l : List Entry) : List Entry := List.insertionSort entryLeP l

/-- The canonical sorted arrangement of a list of names. -/
def sortedNames (l : List Name) : List Name := List.insertionSort nameLeP l

/-- `checkForContent` (`build-manifest.js` lines 127–152): a directory is
"content" (a leaf) when its listing has a name ending in `.pdf`
(case-insensitively) or contains `meta.json`; otherwise it is a leaf exactly
when it has no subdirectories. -/
def checkForContent (files : List Entry) : Bool :=
  let names := files.map entryName
  if names.any isPdfName || names.contains metaName then true
  else !(files.any isDirE)

/-- The per-leaf warnings pushed onto `warnings` in the source, as tags. -/
inductive Warn where
  | missingMeta
  | noPdf
  | multiplePdf (count : Nat)
  | mp3SkippedMultiPdf
  | multipleMp3 (count : Nat)
  | renameFailed
  | mp3NotRenamed
deriving DecidableEq

/-- Whether `fs.renameSync` succeeds for a given (directory path, old name,
new name); failures (permissions etc.) are environment behaviour, modelled as
an oracle. -/
abbrev RenameOracle := List Name → Name → Name → Bool

/-- Rename the entry called `old` within one directory listing, as
`fs.renameSync` affects that directory: if the target name already exists its
entry is replaced (POSIX rename semantics), so the listing just loses `old`;
otherwise the entry keeps its position under the new name. -/
def renameEntry (files : List Entry) (old new : Name) : List Entry :=
  if (files.map entryName).contains new then
    files.filter (fun e => !(entryName e = old : Bool))
  else
    files.map (fun e =>
      if entryName e = old then
        match e with
        | .file _ => .file new
        | .dir _ cs => .dir new cs
      else e)

/-- Result of processing one leaf directory. -/
structure LeafOut where
  value : MNode
  files : List Entry
  renames : List (List Name × Name × Name)
  warns : List Warn
deriving DecidableEq

/-- Leaf handling of the lenient revision (`build-manifest.js` lines 40–112):
filters the listing for PDFs and MP3s, warns on a missing `meta.json`, renames
a single mismatched MP3 (a rename failure is a warning), and stores `null`,
the single PDF name, or the first listed PDF. -/
def processLeafL (oracle : RenameOracle) (p : List Name) (files : List Entry) :
    LeafOut :=
  let names := files.map entryName
  let metaExists := names.contains metaName
  let pdfs := names.filter isPdfName
  let mp3s := names.filter isMp3Name
  let w0 := if metaExists then ([] : List Warn) else [.missingMeta]
  match pdfs with
  | [] => ⟨.nullLeaf, files, [], w0 ++ [.noPdf]⟩
  | [pdfFile] =>
    match mp3s with
    | [mp3File] =>
      if mp3File = expectedMp3Name pdfFile then ⟨.leaf pdfFile, files, [], w0⟩
      else if oracle p mp3File (expectedMp3Name pdfFile) then
        ⟨.leaf pdfFile, renameEntry files mp3File (expectedMp3Name pdfFile),
          [(p, mp3File, expectedMp3Name pdfFile)], w0⟩
      else ⟨.leaf pdfFile, files, [], w0 ++ [.renameFailed]⟩
    | [] => ⟨.leaf pdfFile, files, [], w0⟩
    | _ :: _ :: _ => ⟨.leaf pdfFile, files, [], w0 ++ [.multipleMp3 mp3s.length]⟩
  | pdfFile :: _ :: _ =>
    ⟨.leaf pdfFile, files, [],
      w0 ++ [.multiplePdf pdfs.length]
        ++ (if mp3s.isEmpty then [] else [.mp3SkippedMultiPdf])⟩

/-- Output of scanning one directory in the lenient revision: the manifest
object (keys in insertion order), the replacement children for each processed
subdirectory, and the rename / warning / progress-log streams. -/
structure OutL where
  node : List (Name × MNode)
  upds : List (Name × List Entry)
  renames : List (List Name × Name × Name)
  warns : List (List Name × Warn)
  logs : List (Nat × Name)
deriving DecidableEq

/-- Look up the replacement children recorded for a subdirectory name. -/
def lookupUpd : List (Name × List Entry) → Name → Option (List Entry)
  | [], _ => none
  | (m, cs) :: rest, n => if m = n then some cs else lookupUpd rest n

/-- Replace one entry's children according to the recorded updates (files and
directories without a recorded update are untouched). -/
def updOne (upds : List (Name × List Entry)) : Entry → Entry
  | .file m => .file m
  | .dir m cs =>
    match lookupUpd upds m with
    | some cs' => .dir m cs'
    | none => .dir m cs

/-- Apply the recorded per-subdirectory replacements to a directory listing.
Positions and names of the listing are untouched; only the children of updated
subdirectories change.  (Directory names are unique in a real filesystem, so
the name-keyed lookup identifies each subdirectory.) -/
def applyUpd (es : List Entry) (upds : List (Name × List Entry)) : List Entry :=
  es.map (updOne upds)

/-- The traversal loop of the lenient revision's `scanDirectory`
(`build-manifest.js` lines 31–122): iterate over the sorted subdirectory
entries; a subdirectory with content becomes a leaf via `processLeafL`,
otherwise the scanner logs a progress line and recurses into its (sorted)
subdirectories.  `p` is the relative path and `d` the depth — the depth is
used only in the progress log, mirroring the `indent`/`icon` strings. -/
def goL (oracle : RenameOracle) (p : List Name) (d : Nat) :
    List Entry → OutL
  | [] => ⟨[], [], [], [], []⟩
  | .file _ :: rest => goL oracle p d rest
  | .dir n cs :: rest =>
    if checkForContent cs then
      let lo := processLeafL oracle (p ++ [n]) cs
      let r := goL oracle p d rest
      ⟨(n, lo.value) :: r.node, (n, lo.files) :: r.upds,
        lo.renames ++ r.renames,
        lo.warns.map (fun w => (p ++ [n], w)) ++ r.warns,
        (d, n) :: r.logs⟩
    else
      let sub := goL oracle (p ++ [n]) (d + 1) (sortEntries (cs.filter isDirE))
      let r := goL oracle p d rest
      ⟨(n, .branch sub.node) :: r.node, (n, applyUpd cs sub.upds) :: r.upds,
        sub.renames ++ r.renames, sub.warns ++ r.warns,
        (d, n) :: (sub.logs ++ r.logs)⟩
termination_by l => sizeOf l
decreasing_by
  · simp only [List.cons.sizeOf_spec]; omega
  · simp only [List.cons.sizeOf_spec]; omega
  · have hperm : ∀ l₁ l₂ : List Entry, l₁.Perm l₂ → sizeOf l₁ = sizeOf l₂ := by
      intro l₁ l₂ hp
      induction hp with
      | nil => rfl
      | cons x _ ih => simp only [List.cons.sizeOf_spec]; omega
      | swap x y l => simp only [List.cons.sizeOf_spec]; omega
      | trans _ _ ih₁ ih₂ => omega
    have hfle : ∀ m : List Entry, sizeOf (m.filter isDirE) ≤ sizeOf m := by
      intro m
      induction m with
      | nil => simp
      | cons a l ih =>
        simp only [List.filter_cons]
        split
        · simp only [List.cons.sizeOf_spec]; omega
        · simp only [List.cons.sizeOf_spec]; omega
    have hs := hperm _ _ (List.perm_insertionSort entryLeP (cs.filter isDirE))
    have hc := hfle cs
    simp only [sortEntries, List.cons.sizeOf_spec, Entry.dir.sizeOf_spec]
    omega
  · simp only [List.cons.sizeOf_spec]; omega

/-- `scanDirectory` of the lenient revision applied to one directory listing. -/
def scanL (oracle : RenameOracle) (p : List Name) (d : Nat) (es : List Entry) :
    OutL :=
  goL oracle p d (sortEntries (es.filter isDirE))

/-- The directory tree after the renames of a lenient scan are applied. -/
def scanFsL (oracle : RenameOracle) (es : List Entry) : List Entry :=
  applyUpd es (scanL oracle [] 0 es).upds

/-! JSON serialization, `JSON.stringify(manifest, null, 2)`. -/

/-- Left and right curly braces as characters. -/
def lbChar : Char := '\x7b'

def rbChar : Char := '\x7d'

/-- JSON string escaping for the characters that occur in file names
(quote and backslash; our names contain no control characters). -/
def escapeJson : Name → Name
  | [] => []
  | c :: rest =>
    (if c = '"' then ['\\', '"']
     else if c = '\\' then ['\\', '\\'] else [c]) ++ escapeJson rest

def jsonString (n : Name) : Name := '"' :: (escapeJson n ++ ['"'])

def indentN (lvl : Nat) : Name := List.replicate (2 * lvl) ' '

mutual

/-- Serialize one manifest value at nesting level `lvl`, following
`JSON.stringify(·, null, 2)`: `null`, a quoted string, `\x7b\x7d` for an empty
object, or a multi-line object with two-space indentation. -/
def serializeNode : MNode → Nat → Name
  | .nullLeaf, _ => "null".toList
  | .leaf pdfFile, _ => jsonString pdfFile
  | .branch [], _ => [lbChar, rbChar]
  | .branch (kv :: rest), lvl =>
    [lbChar, '\n'] ++ serializeItems (kv :: rest) (lvl + 1)
      ++ ['\n'] ++ indentN lvl ++ [rbChar]

def serializeItems : List (Name × MNode) → Nat → Name
  | [], _ => []
  | [(k, v)], lvl => indentN lvl ++ jsonString k ++ [':', ' '] ++ serializeNode v lvl
  | (k, v) :: kv :: rest, lvl =>
    indentN lvl ++ jsonString k ++ [':', ' '] ++ serializeNode v lvl
      ++ [',', '\n'] ++ serializeItems (kv :: rest) lvl

end

/-- The bytes written to `manifest.json`: the root object at level 0. -/
def serializeTop (children : List (Name × MNode)) : Name :=
  serializeNode (.branch children) 0

/-- A whole run of the lenient revision's `buildManifest`: the root may be
missing (`fs.existsSync` fails — `process.exit(1)` before anything is
written); otherwise the scan runs to completion and the serialized manifest is
written once, whole, at the end.  Result: (list of file writes, exit code). -/
def buildL (oracle : RenameOracle) (root : Option (List Entry)) :
    List Name × Nat :=
  match root with
  | none => ([], 1)
  | some es => ([serializeTop (scanL oracle [] 0 es).node], 0)

/-! The interactive / strict revision (second document of
`src/unnamed/part_000`). -/

/-- Decidable equality for `Except` results (component-wise). -/
instance exceptDecEq {ε α : Type} [DecidableEq ε] [DecidableEq α] :
    DecidableEq (Except ε α) := fun a b =>
  match a, b with
  | .error x, .error y =>
    match decEq x y with
    | isTrue h => isTrue (by rw [h])
    | isFalse h => isFalse (by intro hh; cases hh; exact h rfl)
  | .ok x, .ok y =>
    match decEq x y with
    | isTrue h => isTrue (by rw [h])
    | isFalse h => isFalse (by intro hh; cases hh; exact h rfl)
  | .error _, .ok _ => isFalse (by intro hh; exact Except.noConfusion hh)
  | .ok _, .error _ => isFalse (by intro hh; exact Except.noConfusion hh)

/-- The stream of terminal answers: the `i`-th call of `promptUser` resolves
with `answers i`. -/
abbrev Answers := Nat → Name

def isWsChar (c : Char) : Bool := c = ' ' || c = '\t' || c = '\n' || c = '\r'

/-- `String.prototype.trim()` (common whitespace). -/
def trimName (n : Name) : Name :=
  ((n.dropWhile isWsChar).reverse.dropWhile isWsChar).reverse

/-- `answer.toLowerCase().trim()` applied by `promptUser` before resolving. -/
def normalizeAnswer (n : Name) : Name := trimName (lowerName n)

/-- Whether a normalized answer is `"q"` or `"quit"`. -/
def isQuitAnswer (a : Name) : Bool := a = "q".toList || a = "quit".toList

/-- Whether a normalized answer is `"y"` or `"yes"`. -/
def isYesAnswer (a : Name) : Bool := a = "y".toList || a = "yes".toList

/-- The ways the interactive revision calls `process.exit` during the scan:
multiple PDFs in a leaf (with the offending file list, lines 218–227),
multiple MP3s (lines 232–241), the user answering `q`/`quit` (lines 258–260),
and a failed rename after a `y` answer (lines 269–272). -/
inductive AbortI where
  | multiPdf (path : List Name) (files : List Name)
  | multiMp3 (path : List Name) (files : List Name)
  | userQuit
  | renameFail (path : List Name) (old new : Name)
deriving DecidableEq

/-- The argument of `process.exit` for each abort: `0` for the user quit
(line 260), `1` for the others. -/
def AbortI.exitCode : AbortI → Nat
  | .userQuit => 0
  | _ => 1

/-- Result of processing one leaf directory interactively. -/
structure LeafOutI where
  value : MNode
  files : List Entry
  idx : Nat
  prompts : List (List Name × Name × Name × Name)
  renames : List (List Name × Name × Name)
  warns : List Warn
deriving DecidableEq

/-- Leaf handling of the interactive revision (`part_000` lines 195–290):
multiple PDFs or multiple MP3s abort; a single mismatched MP3 prompts the
user — `q`/`quit` aborts with exit 0, `y`/`yes` renames (a filesystem failure
aborts with exit 1), anything else skips the rename with a warning.  `idx` is
the number of prompts answered so far; each issued prompt is recorded as
(path, current MP3, expected name, normalized answer). -/
def processLeafI (answers : Answers) (oracle : RenameOracle) (p : List Name)
    (files : List Entry) (idx : Nat) : Except AbortI LeafOutI :=
  let names := files.map entryName
  let metaExists := names.contains metaName
  let pdfs := names.filter isPdfName
  let mp3s := names.filter isMp3Name
  let w0 := if metaExists then ([] : List Warn) else [.missingMeta]
  match pdfs with
  | [] => .ok ⟨.nullLeaf, files, idx, [], [], w0 ++ [.noPdf]⟩
  | [pdfFile] =>
    match mp3s with
    | _ :: _ :: _ => .error (.multiMp3 p mp3s)
    | [mp3File] =>
      if mp3File = expectedMp3Name pdfFile then
        .ok ⟨.leaf pdfFile, files, idx, [], [], w0⟩
      else
        let a := normalizeAnswer (answers idx)
        if isQuitAnswer a then .error .userQuit
        else if isYesAnswer a then
          if oracle p mp3File (expectedMp3Name pdfFile) then
            .ok ⟨.leaf pdfFile,
              renameEntry files mp3File (expectedMp3Name pdfFile), idx + 1,
              [(p, mp3File, expectedMp3Name pdfFile, a)],
              [(p, mp3File, expectedMp3Name pdfFile)], w0⟩
          else .error (.renameFail p mp3File (expectedMp3Name pdfFile))
        else
          .ok ⟨.leaf pdfFile, files, idx + 1,
            [(p, mp3File, expectedMp3Name pdfFile, a)], [],
            w0 ++ [.mp3NotRenamed]⟩
    | [] => .ok ⟨.leaf pdfFile, files, idx, [], [], w0⟩
  | _ :: _ :: _ => .error (.multiPdf p pdfs)

/-- Output of scanning one directory in the interactive revision. -/
structure OutI where
  node : List (Name × MNode)
  upds : List (Name × List Entry)
  idx : Nat
  prompts : List (List Name × Name × Name × Name)
  renames : List (List Name × Name × Name)
  warns : List (List Name × Warn)
  logs : List (Nat × Name)
deriving DecidableEq

/-- The traversal loop of the interactive revision's `scanDirectory`
(`part_000` lines 186–300): like the lenient loop, but an abort anywhere
(a `process.exit` call) ends the whole traversal immediately. -/
def goI (answers : Answers) (oracle : RenameOracle) (p : List Name) (d : Nat) :
    List Entry → Nat → Except AbortI OutI
  | [], idx => .ok ⟨[], [], idx, [], [], [], []⟩
  | .file _ :: rest, idx => goI answers oracle p d rest idx
  | .dir n cs :: rest, idx =>
    if checkForContent cs then
      match processLeafI answers oracle (p ++ [n]) cs idx with
      | .error a => .error a
      | .ok lo =>
        match goI answers oracle p d rest lo.idx with
        | .error a => .error a
        | .ok r =>
          .ok ⟨(n, lo.value) :: r.node, (n, lo.files) :: r.upds, r.idx,
            lo.prompts ++ r.prompts, lo.renames ++ r.renames,
            lo.warns.map (fun w => (p ++ [n], w)) ++ r.warns,
            (d, n) :: r.logs⟩
    else
      match goI answers oracle (p ++ [n]) (d + 1)
          (sortEntries (cs.filter isDirE)) idx with
      | .error a => .error a
      | .ok sub =>
        match goI answers oracle p d rest sub.idx with
        | .error a => .error a
        | .ok r =>
          .ok ⟨(n, .branch sub.node) :: r.node,
            (n, applyUpd cs sub.upds) :: r.upds, r.idx,
            sub.prompts ++ r.prompts, sub.renames ++ r.renames,
            sub.warns ++ r.warns, (d, n) :: (sub.logs ++ r.logs)⟩
termination_by l _ => sizeOf l
decreasing_by
  · simp only [List.cons.sizeOf_spec]; omega
  · simp only [List.cons.sizeOf_spec]; omega
  · have hperm : ∀ l₁ l₂ : List Entry, l₁.Perm l₂ → sizeOf l₁ = sizeOf l₂ := by
      intro l₁ l₂ hp
      induction hp with
      | nil => rfl
      | cons x _ ih => simp only [List.cons.sizeOf_spec]; omega
      | swap x y l => simp only [List.cons.sizeOf_spec]; omega
      | trans _ _ ih₁ ih₂ => omega
    have hfle : ∀ m : List Entry, sizeOf (m.filter isDirE) ≤ sizeOf m := by
      intro m
      induction m with
      | nil => simp
      | cons a l ih =>
        simp only [List.filter_cons]
        split
        · simp only [List.cons.sizeOf_spec]; omega
        · simp only [List.cons.sizeOf_spec]; omega
    have hs := hperm _ _ (List.perm_insertionSort entryLeP (cs.filter isDirE))
    have hc := hfle cs
    simp only [sortEntries, List.cons.sizeOf_spec, Entry.dir.sizeOf_spec]
    omega
  · simp only [List.cons.sizeOf_spec]; omega

/-- `scanDirectory` of the interactive revision applied to the root listing. -/
def scanI (answers : Answers) (oracle : RenameOracle) (es : List Entry) :
    Except AbortI OutI :=
  goI answers oracle [] 0 (sortEntries (es.filter isDirE)) 0

/-- A whole run of the interactive revision's `buildManifest`: exit 1 and no
write when the root is missing; an abort during the scan exits with that
abort's code, before the manifest write; otherwise the single whole-file write
happens at the end and the process exits 0. -/
def buildI (answers : Answers) (oracle : RenameOracle)
    (root : Option (List Entry)) : List Name × Nat :=
  match root with
  | none => ([], 1)
  | some es =>
    match scanI answers oracle es with
    | .error a => ([], a.exitCode)
    | .ok out => ([serializeTop out.node], 0)

/-! Auxiliary definitions used to state the claims. -/

/-- A nested chain of single-subdirectory directories of the given depth, with
one PDF at the bottom — used to exhibit traversal at arbitrary depth. -/
def chainE : Nat → Entry
  | 0 => .dir ("c".toList) [.file ("x.pdf".toList)]
  | n + 1 => .dir ("c".toList) [chainE n]

mutual

/-- Nesting depth of a manifest value (a leaf counts 0, a branch one more
than its deepest child). -/
def nodeDepth : MNode → Nat
  | .nullLeaf => 0
  | .leaf _ => 0
  | .branch l => 1 + listDepth l

def listDepth : List (Name × MNode) → Nat
  | [] => 0
  | (_, v) :: rest => max (nodeDepth v) (listDepth rest)

end

/-- A leaf listing is idempotence-friendly when, in the
one-PDF/one-mismatched-MP3 case, the expected companion name is itself
MP3-named (true for every primary name whose only `".pdf"` occurrence is its
final extension). -/
def leafIdemOk (files : List Entry) : Bool :=
  match (files.map entryName).filter isPdfName,
      (files.map entryName).filter isMp3Name with
  | [pdfFile], [mp3File] =>
    if mp3File = expectedMp3Name pdfFile then true
    else isMp3Name (expectedMp3Name pdfFile)
  | _, _ => true

mutual

/-- `leafIdemOk` for every directory listing in the tree. -/
def allIdemOk : List Entry → Bool
  | [] => true
  | e :: rest => idemE e && allIdemOk rest

def idemE : Entry → Bool
  | .file _ => true
  | .dir _ cs => leafIdemOk cs && allIdemOk cs

end

mutual

/-- Well-formedness of a directory tree: within each directory all entry
names are distinct (always true of a real filesystem). -/
def wfFS : List Entry → Bool
  | [] => true
  | e :: rest => !((rest.map entryName).contains (entryName e)) && wfE e && wfFS rest

def wfE : Entry → Bool
  | .file _ => true
  | .dir _ cs => wfFS cs

end

/-- The children of the first subdirectory called `n` in a listing. -/
def findDir : List Entry → Name → Option (List Entry)
  | [], _ => none
  | .file _ :: rest, n => findDir rest n
  | .dir m cs :: rest, n => if m = n then some cs else findDir rest n

/-- Resolve a relative directory path from a listing. -/
def dirAt : List Entry → List Name → Option (List Entry)
  | es, [] => some es
  | es, n :: rest =>
    match findDir es n with
    | some cs => dirAt cs rest
    | none => none

end ZeidyD


namespace ZeidyD

/-! Order properties of the name comparison. -/

theorem nameLe_total : ∀ a b : Name, nameLe a b = true ∨ nameLe b a = true := by
  intro a
  induction a with
  | nil => intro b; left; rfl
  | cons x as ih =>
    intro b
    cases b with
    | nil => right; rfl
    | cons y bs =>
      by_cases hxy : x = y
      · subst hxy
        rcases ih bs with h | h
        · left; simpa [nameLe] using h
        · right; simpa [nameLe] using h
      · rcases lt_or_gt_of_ne hxy with h | h
        · left; simp [nameLe, hxy, h]
        · right; simp [nameLe, Ne.symm hxy]
          exact h

theorem nameLe_trans : ∀ a b c : Name,
    nameLe a b = true → nameLe b c = true → nameLe a c = true := by
  intro a
  induction a with
  | nil => intro b c _ _; rfl
  | cons x as ih =>
    intro b c hab hbc
    cases b with
    | nil => simp [nameLe] at hab
    | cons y bs =>
      cases c with
      | nil => simp [nameLe] at hbc
      | cons z cs =>
        by_cases hxy : x = y <;> by_cases hyz : y = z
        · subst hxy; subst hyz
          simp only [nameLe, if_pos rfl] at hab hbc ⊢
          exact ih bs cs hab hbc
        · subst hxy
          simp only [nameLe, if_neg hyz] at hbc ⊢
          exact hbc
        · subst hyz
          simp only [nameLe, if_neg hxy] at hab ⊢
          exact hab
        · simp only [nameLe, if_neg hxy] at hab
          simp only [nameLe, if_neg hyz] at hbc
          have hxz : x < z := lt_trans (of_decide_eq_true hab) (of_decide_eq_true hbc)
          have hne : x ≠ z := ne_of_lt hxz
          simp [nameLe, hne, hxz]

theorem nameLe_antisymm : ∀ a b : Name,
    nameLe a b = true → nameLe b a = true → a = b := by
  intro a
  induction a with
  | nil =>
    intro b _ hba
    cases b with
    | nil => rfl
    | cons y bs => simp [nameLe] at hba
  | cons x as ih =>
    intro b hab hba
    cases b with
    | nil => simp [nameLe] at hab
    | cons y bs =>
      by_cases hxy : x = y
      · subst hxy
        simp only [nameLe, if_pos rfl] at hab hba
        rw [ih bs hab hba]
      · simp only [nameLe, if_neg hxy] at hab
        simp only [nameLe, if_neg (Ne.symm hxy)] at hba
        exact absurd (lt_trans (of_decide_eq_true hab) (of_decide_eq_true hba))
          (lt_irrefl x)

instance : IsTotal Name nameLeP := ⟨nameLe_total⟩

instance : IsTrans Name nameLeP := ⟨nameLe_trans⟩

instance : IsAntisymm Name nameLeP := ⟨nameLe_antisymm⟩

instance : IsTotal Entry entryLeP := ⟨fun a b => nameLe_total (entryName a) (entryName b)⟩

instance : IsTrans Entry entryLeP :=
  ⟨fun _ _ _ => nameLe_trans (entryName _) (entryName _) (entryName _)⟩

end ZeidyD

namespace ZeidyD

/-! Step equations and structural facts about the lenient traversal loop. -/

theorem goL_nil (o : RenameOracle) (p : List Name) (d : Nat) :
    goL o p d [] = ⟨[], [], [], [], []⟩ := by
  simp [goL]

theorem goL_file (o : RenameOracle) (p : List Name) (d : Nat) (m : Name)
    (rest : List Entry) : goL o p d (.file m :: rest) = goL o p d rest := by
  simp [goL]

theorem goL_leaf (o : RenameOracle) (p : List Name) (d : Nat) (n : Name)
    (cs rest : List Entry) (h : checkForContent cs = true) :
    goL o p d (.dir n cs :: rest) =
      ⟨(n, (processLeafL o (p ++ [n]) cs).value) :: (goL o p d rest).node,
        (n, (processLeafL o (p ++ [n]) cs).files) :: (goL o p d rest).upds,
        (processLeafL o (p ++ [n]) cs).renames ++ (goL o p d rest).renames,
        ((processLeafL o (p ++ [n]) cs).warns.map (fun w => (p ++ [n], w)))
          ++ (goL o p d rest).warns,
        (d, n) :: (goL o p d rest).logs⟩ := by
  rw [goL]
  simp [h]

theorem goL_branch (o : RenameOracle) (p : List Name) (d : Nat) (n : Name)
    (cs rest : List Entry) (h : checkForContent cs = false) :
    goL o p d (.dir n cs :: rest) =
      ⟨(n, .branch (goL o (p ++ [n]) (d + 1) (sortEntries (cs.filter isDirE))).node)
          :: (goL o p d rest).node,
        (n, applyUpd cs (goL o (p ++ [n]) (d + 1) (sortEntries (cs.filter isDirE))).upds)
          :: (goL o p d rest).upds,
        (goL o (p ++ [n]) (d + 1) (sortEntries (cs.filter isDirE))).renames
          ++ (goL o p d rest).renames,
        (goL o (p ++ [n]) (d + 1) (sortEntries (cs.filter isDirE))).warns
          ++ (goL o p d rest).warns,
        (d, n) :: ((goL o (p ++ [n]) (d + 1) (sortEntries (cs.filter isDirE))).logs
          ++ (goL o p d rest).logs)⟩ := by
  rw [goL]
  simp [h]

/-- The keys of a scanned directory's object are the names of the directory
entries of the traversed list, in traversal order. -/
theorem goL_keys (o : RenameOracle) (p : List Name) (d : Nat) :
    ∀ l : List Entry,
      (goL o p d l).node.map Prod.fst = (l.filter isDirE).map entryName := by
  intro l
  induction l with
  | nil => simp [goL_nil]
  | cons e rest ih =>
    cases e with
    | file m => simpa [goL_file, List.filter_cons, isDirE] using ih
    | dir n cs =>
      cases h : checkForContent cs with
      | true => simp [goL_leaf _ _ _ _ _ _ h, List.filter_cons, isDirE, entryName, ih]
      | false => simp [goL_branch _ _ _ _ _ _ h, List.filter_cons, isDirE, entryName, ih]

/-- A directory entry with content contributes its processed leaf value and
warnings to the scan of any listing containing it. -/
theorem goL_mem_leaf (o : RenameOracle) (p : List Name) (d : Nat) (n : Name)
    (cs : List Entry) :
    ∀ l : List Entry, Entry.dir n cs ∈ l → checkForContent cs = true →
      (n, (processLeafL o (p ++ [n]) cs).value) ∈ (goL o p d l).node ∧
      ∀ w ∈ (processLeafL o (p ++ [n]) cs).warns,
        (p ++ [n], w) ∈ (goL o p d l).warns := by
  intro l
  induction l with
  | nil => intro h; simp at h
  | cons e rest ih =>
    intro hmem hc
    rcases List.mem_cons.mp hmem with he | he
    · rw [← he, goL_leaf _ _ _ _ _ _ hc]
      refine ⟨List.mem_cons_self _ _, fun w hw => ?_⟩
      exact List.mem_append_left _ (List.mem_map_of_mem _ hw)
    · have step : (n, (processLeafL o (p ++ [n]) cs).value) ∈ (goL o p d rest).node ∧
          ∀ w ∈ (processLeafL o (p ++ [n]) cs).warns,
            (p ++ [n], w) ∈ (goL o p d rest).warns := ih he hc
      cases e with
      | file m =>
        rw [goL_file]
        exact step
      | dir n' cs' =>
        cases h' : checkForContent cs' with
        | true =>
          rw [goL_leaf _ _ _ _ _ _ h']
          exact ⟨List.mem_cons_of_mem _ step.1,
            fun w hw => List.mem_append_right _ (step.2 w hw)⟩
        | false =>
          rw [goL_branch _ _ _ _ _ _ h']
          exact ⟨List.mem_cons_of_mem _ step.1,
            fun w hw => List.mem_append_right _ (step.2 w hw)⟩

/-- Lift membership in a listing to membership in the sorted subdirectory
traversal list. -/
theorem mem_sortEntries_of_mem {es : List Entry} {n : Name} {cs : List Entry}
    (h : Entry.dir n cs ∈ es) :
    Entry.dir n cs ∈ sortEntries (es.filter isDirE) := by
  rw [sortEntries, (List.perm_insertionSort entryLeP _).mem_iff]
  exact List.mem_filter.mpr ⟨h, rfl⟩

theorem scanL_mem_leaf (o : RenameOracle) (p : List Name) (d : Nat)
    {es : List Entry} {n : Name} {cs : List Entry}
    (hmem : Entry.dir n cs ∈ es) (hc : checkForContent cs = true) :
    (n, (processLeafL o (p ++ [n]) cs).value) ∈ (scanL o p d es).node ∧
    ∀ w ∈ (processLeafL o (p ++ [n]) cs).warns,
      (p ++ [n], w) ∈ (scanL o p d es).warns :=
  goL_mem_leaf o p d n cs _ (mem_sortEntries_of_mem hmem) hc

end ZeidyD

namespace ZeidyD

/-! Claim C2: directories with no content files and no subdirectories. -/

/-- C2 (amended): a directory containing no PDF-named entry, no `meta.json`,
and no subdirectory is classified as content by `checkForContent` and is
therefore scanned as a *leaf* whose manifest value is the absence marker
`null` (with a "no PDF files" warning) — not as an empty branch; the scan is
total on such input. -/
theorem C2_empty_dir_null_leaf (o : RenameOracle) (p : List Name) (d : Nat)
    (es : List Entry) (n : Name) (cs : List Entry)
    (hmem : Entry.dir n cs ∈ es)
    (hnopdf : (cs.map entryName).any isPdfName = false)
    (hnometa : (cs.map entryName).contains metaName = false)
    (hnodir : cs.any isDirE = false) :
    checkForContent cs = true ∧
    (n, MNode.nullLeaf) ∈ (scanL o p d es).node ∧
    (p ++ [n], Warn.noPdf) ∈ (scanL o p d es).warns := by
  have hc : checkForContent cs = true := by
    simp [checkForContent, hnopdf, hnometa, hnodir]
  have hpdfs : (cs.map entryName).filter isPdfName = [] := by
    rw [List.filter_eq_nil_iff]
    intro a ha
    have h := List.any_eq_false.mp hnopdf a ha
    simp [h]
  obtain ⟨h1, h2⟩ := scanL_mem_leaf o p d hmem hc
  have hval : (processLeafL o (p ++ [n]) cs).value = MNode.nullLeaf := by
    simp [processLeafL, hpdfs]
  have hwarn : Warn.noPdf ∈ (processLeafL o (p ++ [n]) cs).warns := by
    simp [processLeafL, hpdfs]
  exact ⟨hc, hval ▸ h1, h2 _ hwarn⟩

/-- C2 witness: the amended statement evaluated on a one-subdirectory tree
whose subdirectory is empty. -/
theorem C2_witness :
    checkForContent ([] : List Entry) = true ∧
    ((("empty".toList : Name), MNode.nullLeaf)
      ∈ (scanL (fun _ _ _ => false) [] 0 [Entry.dir ("empty".toList) []]).node) ∧
    (([] ++ [("empty".toList : Name)], Warn.noPdf)
      ∈ (scanL (fun _ _ _ => false) [] 0 [Entry.dir ("empty".toList) []]).warns) :=
  C2_empty_dir_null_leaf (fun _ _ _ => false) [] 0 _ _ _
    (by decide) (by decide) (by decide) (by decide)

/-- C2 counterexample: the claim as stated is false — the scan of a tree whose
only subdirectory is completely empty assigns that directory the value `null`
(a leaf absence marker), which is not the empty branch the claim requires. -/
theorem C2_counterexample :
    (scanL (fun _ _ _ => true) [] 0 [Entry.dir ("empty".toList) []]).node
        = [(("empty".toList : Name), MNode.nullLeaf)] ∧
      MNode.nullLeaf ≠ MNode.branch [] := by
  constructor
  · have hs : sortEntries ([Entry.dir ("empty".toList) []].filter isDirE)
        = [Entry.dir ("empty".toList) []] := by decide
    rw [scanL, hs, goL_leaf _ _ _ _ _ _ (by decide), goL_nil]
    decide
  · decide

/-! Claim C4: lenient handling of leaves with several primary files. -/

/-- C4 (amended): in the lenient revision a leaf listing whose PDF filter
yields two or more names gets the *first PDF in listing order* as its value
(not necessarily the lexicographically first one), a multiple-PDFs warning is
recorded, and no rename is attempted — the listing is left untouched. -/
theorem C4_first_listed_pdf (o : RenameOracle) (p : List Name) (d : Nat)
    (es : List Entry) (n : Name) (cs : List Entry) (p₀ p₁ : Name) (ps : List Name)
    (hmem : Entry.dir n cs ∈ es)
    (hpdfs : (cs.map entryName).filter isPdfName = p₀ :: p₁ :: ps) :
    (n, MNode.leaf p₀) ∈ (scanL o p d es).node ∧
    (p ++ [n], Warn.multiplePdf (p₀ :: p₁ :: ps).length) ∈ (scanL o p d es).warns ∧
    (processLeafL o (p ++ [n]) cs).renames = [] ∧
    (processLeafL o (p ++ [n]) cs).files = cs := by
  have h0 : p₀ ∈ (cs.map entryName).filter isPdfName := by
    rw [hpdfs]; exact List.mem_cons_self _ _
  have hany : (cs.map entryName).any isPdfName = true := by
    rw [List.any_eq_true]
    exact ⟨p₀, List.mem_of_mem_filter h0, (List.mem_filter.mp h0).2⟩
  have hc : checkForContent cs = true := by
    simp [checkForContent, hany]
  obtain ⟨h1, h2⟩ := scanL_mem_leaf o p d hmem hc
  have hval : (processLeafL o (p ++ [n]) cs).value = MNode.leaf p₀ := by
    simp [processLeafL, hpdfs]
  have hwarn : Warn.multiplePdf (p₀ :: p₁ :: ps).length
      ∈ (processLeafL o (p ++ [n]) cs).warns := by
    simp [processLeafL, hpdfs]
  have hren : (processLeafL o (p ++ [n]) cs).renames = [] := by
    simp [processLeafL, hpdfs]
  have hfs : (processLeafL o (p ++ [n]) cs).files = cs := by
    simp [processLeafL, hpdfs]
  exact ⟨hval ▸ h1, h2 _ hwarn, hren, hfs⟩

/-- C4 witness: the amended statement evaluated on a leaf listing two PDFs. -/
theorem C4_witness :
    ((("m".toList : Name), MNode.leaf ("b.pdf".toList))
      ∈ (scanL (fun _ _ _ => true) [] 0
          [Entry.dir ("m".toList)
            [Entry.file ("b.pdf".toList), Entry.file ("a.pdf".toList)]]).node) ∧
    (([] ++ [("m".toList : Name)], Warn.multiplePdf 2)
      ∈ (scanL (fun _ _ _ => true) [] 0
          [Entry.dir ("m".toList)
            [Entry.file ("b.pdf".toList), Entry.file ("a.pdf".toList)]]).warns) ∧
    (processLeafL (fun _ _ _ => true) ([] ++ [("m".toList : Name)])
        [Entry.file ("b.pdf".toList), Entry.file ("a.pdf".toList)]).renames = [] ∧
    (processLeafL (fun _ _ _ => true) ([] ++ [("m".toList : Name)])
        [Entry.file ("b.pdf".toList), Entry.file ("a.pdf".toList)]).files
      = [Entry.file ("b.pdf".toList), Entry.file ("a.pdf".toList)] :=
  C4_first_listed_pdf (fun _ _ _ => true) [] 0
    [Entry.dir ("m".toList) [Entry.file ("b.pdf".toList), Entry.file ("a.pdf".toList)]]
    ("m".toList) [Entry.file ("b.pdf".toList), Entry.file ("a.pdf".toList)]
    ("b.pdf".toList) ("a.pdf".toList) [] (by decide) (by decide)

/-- C4 counterexample: with the listing order `B.pdf, A.pdf` the leaf value is
`B.pdf`, while the lexicographically-first of the two names is `A.pdf` — so
the claimed value is wrong for this listing order. -/
theorem C4_counterexample :
    (scanL (fun _ _ _ => true) [] 0
        [Entry.dir ("d".toList)
          [Entry.file ("B.pdf".toList), Entry.file ("A.pdf".toList)]]).node
      = [(("d".toList : Name), MNode.leaf ("B.pdf".toList))] ∧
    sortedNames [("B.pdf".toList : Name), ("A.pdf".toList : Name)]
      = [("A.pdf".toList : Name), ("B.pdf".toList : Name)] ∧
    ("B.pdf".toList : Name) ≠ ("A.pdf".toList : Name) := by
  refine ⟨?_, by decide, by decide⟩
  have hs : sortEntries
      ([Entry.dir ("d".toList)
        [Entry.file ("B.pdf".toList), Entry.file ("A.pdf".toList)]].filter isDirE)
      = [Entry.dir ("d".toList)
          [Entry.file ("B.pdf".toList), Entry.file ("A.pdf".toList)]] := by decide
  rw [scanL, hs, goL_leaf _ _ _ _ _ _ (by decide), goL_nil]
  decide

end ZeidyD

namespace ZeidyD

/-! Properties of `replaceFirst` and of the extension filters. -/

/-- When the pattern does not occur, `replace` returns the string unchanged. -/
theorem replaceFirst_of_not_hasSub (pat rep : Name) :
    ∀ s : Name, hasSub s pat = false → replaceFirst s pat rep = s := by
  intro s
  induction s with
  | nil => intro _; rfl
  | cons c rest ih =>
    intro h
    simp only [hasSub, Bool.or_eq_false_iff] at h
    simp [replaceFirst, h.1, ih h.2]

/-- With no `".pdf"` inside the stem, the first occurrence of `".pdf"` in
`X ++ ".pdf"` is the final extension, so `replace` rewrites exactly it.
(`".pdf"` has no nontrivial border, so no occurrence can straddle the
boundary.) -/
theorem replaceFirst_stem_append (X : Name) (hX : hasSub X pdfSuffix = false) :
    replaceFirst (X ++ pdfSuffix) pdfSuffix mp3Suffix = X ++ mp3Suffix := by
  induction X with
  | nil => decide
  | cons c rest ih =>
    simp only [hasSub, Bool.or_eq_false_iff] at hX
    have hnp : pdfSuffix.isPrefixOf (c :: (rest ++ pdfSuffix)) = false := by
      cases hfull : pdfSuffix.isPrefixOf (c :: (rest ++ pdfSuffix)) with
      | false => rfl
      | true =>
        exfalso
        rcases rest with _ | ⟨a, _ | ⟨b, _ | ⟨e, rest'⟩⟩⟩
        · simp [pdfSuffix, List.isPrefixOf] at hfull
        · simp [pdfSuffix, List.isPrefixOf] at hfull
        · simp [pdfSuffix, List.isPrefixOf] at hfull
        · simp [pdfSuffix, List.isPrefixOf] at hfull
          obtain ⟨hc, ha, hb, he⟩ := hfull
          subst hc; subst ha; subst hb; subst he
          have h1 := hX.1
          simp [pdfSuffix, List.isPrefixOf] at h1
    have step : replaceFirst ((c :: rest) ++ pdfSuffix) pdfSuffix mp3Suffix
        = c :: replaceFirst (rest ++ pdfSuffix) pdfSuffix mp3Suffix := by
      simp [List.cons_append, replaceFirst, hnp]
    rw [step, ih hX.2]
    simp

end ZeidyD

namespace ZeidyD

theorem isMp3Name_append_mp3 (X : Name) : isMp3Name (X ++ mp3Suffix) = true := by
  have hlow : mp3Suffix.map Char.toLower = mp3Suffix := by decide
  simp only [isMp3Name, lowerName, List.map_append]
  rw [List.isSuffixOf_iff_suffix, hlow]
  exact List.suffix_append _ _

theorem not_isPdfName_of_isMp3Name (n : Name) (h : isMp3Name n = true) :
    isPdfName n = false := by
  cases hp : isPdfName n with
  | false => rfl
  | true =>
    exfalso
    rw [isMp3Name, List.isSuffixOf_iff_suffix] at h
    rw [isPdfName, List.isSuffixOf_iff_suffix] at hp
    obtain ⟨u, hu⟩ := h
    obtain ⟨v, hv⟩ := hp
    have hlen : u.length = v.length := by
      have h1 := congrArg List.length hu
      have h2 := congrArg List.length hv
      simp [pdfSuffix, mp3Suffix] at h1 h2
      omega
    have hj := List.append_inj (hu.trans hv.symm) hlen
    exact absurd hj.2 (by decide)

/-! Claim C10: the expected MP3 name replaces the first `".pdf"` occurrence. -/

/-- C10: the expected companion name is computed by replacing the first
occurrence of the lowercase `".pdf"` in the primary name; consequently, for a
leaf whose single primary is matched case-insensitively but contains no
lowercase `".pdf"` (for example `X.PDF`), the expected name equals the primary
name itself, and a present MP3 with any other name is renamed to exactly the
primary's name. -/
theorem C10_replace_first_occurrence (o : RenameOracle) (p : List Name)
    (files : List Entry) (P M : Name)
    (hP : hasSub P pdfSuffix = false)
    (hpdfs : (files.map entryName).filter isPdfName = [P])
    (hmp3s : (files.map entryName).filter isMp3Name = [M])
    (ho : o p M P = true) :
    expectedMp3Name P = P ∧
    (processLeafL o p files).renames = [(p, M, P)] ∧
    (processLeafL o p files).files = renameEntry files M P ∧
    (processLeafL o p files).value = MNode.leaf P := by
  have hexp : expectedMp3Name P = P :=
    replaceFirst_of_not_hasSub pdfSuffix mp3Suffix P hP
  have hMmem : M ∈ (files.map entryName).filter isMp3Name := by
    rw [hmp3s]; exact List.mem_cons_self _ _
  have hPmem : P ∈ (files.map entryName).filter isPdfName := by
    rw [hpdfs]; exact List.mem_cons_self _ _
  have hM3 : isMp3Name M = true := (List.mem_filter.mp hMmem).2
  have hPp : isPdfName P = true := (List.mem_filter.mp hPmem).2
  have hMP : M ≠ P := by
    intro he
    rw [he] at hM3
    rw [not_isPdfName_of_isMp3Name P hM3] at hPp
    exact Bool.noConfusion hPp
  refine ⟨hexp, ?_, ?_, ?_⟩ <;>
    simp [processLeafL, hpdfs, hmp3s, hexp, hMP, ho]

/-- C10 witness: a leaf with primary `X.PDF` (no lowercase `".pdf"`) and MP3
`audio.mp3` — the rename target is the primary's exact name. -/
theorem C10_witness :
    expectedMp3Name ("X.PDF".toList) = "X.PDF".toList ∧
    (processLeafL (fun _ _ _ => true) [("d".toList : Name)]
        [Entry.file ("X.PDF".toList), Entry.file ("audio.mp3".toList)]).renames
      = [([("d".toList : Name)], ("audio.mp3".toList : Name), ("X.PDF".toList : Name))] ∧
    (processLeafL (fun _ _ _ => true) [("d".toList : Name)]
        [Entry.file ("X.PDF".toList), Entry.file ("audio.mp3".toList)]).files
      = renameEntry [Entry.file ("X.PDF".toList), Entry.file ("audio.mp3".toList)]
          ("audio.mp3".toList) ("X.PDF".toList) ∧
    (processLeafL (fun _ _ _ => true) [("d".toList : Name)]
        [Entry.file ("X.PDF".toList), Entry.file ("audio.mp3".toList)]).value
      = MNode.leaf ("X.PDF".toList) :=
  C10_replace_first_occurrence (fun _ _ _ => true) [("d".toList : Name)]
    [Entry.file ("X.PDF".toList), Entry.file ("audio.mp3".toList)]
    ("X.PDF".toList) ("audio.mp3".toList)
    (by decide) (by decide) (by decide) (by decide)

/-! Claim C7: lenient auto-rename of a single mismatched MP3. -/

/-- C7 (amended): for a leaf with exactly one primary `X.pdf` — where the stem
`X` contains no `".pdf"`, which the counterexample forces — and one mismatched
MP3 `M`, the lenient scan renames `M` in place (same directory, entry position
and all other entries kept, primary untouched) to `X.mp3`, and the leaf value
is `X.pdf`. -/
theorem C7_rename_to_stem (o : RenameOracle) (p : List Name)
    (files : List Entry) (X M : Name)
    (hX : hasSub X pdfSuffix = false)
    (hpdfs : (files.map entryName).filter isPdfName = [X ++ pdfSuffix])
    (hmp3s : (files.map entryName).filter isMp3Name = [M])
    (hM : M ≠ X ++ mp3Suffix)
    (ho : o p M (X ++ mp3Suffix) = true) :
    (processLeafL o p files).value = MNode.leaf (X ++ pdfSuffix) ∧
    (processLeafL o p files).renames = [(p, M, X ++ mp3Suffix)] ∧
    (processLeafL o p files).files = files.map (fun e =>
      if entryName e = M then
        match e with
        | Entry.file _ => Entry.file (X ++ mp3Suffix)
        | Entry.dir _ cs => Entry.dir (X ++ mp3Suffix) cs
      else e) ∧
    (X ++ pdfSuffix) ∈ (processLeafL o p files).files.map entryName := by
  have hexp : expectedMp3Name (X ++ pdfSuffix) = X ++ mp3Suffix :=
    replaceFirst_stem_append X hX
  have hnotin : ((files.map entryName).contains (X ++ mp3Suffix)) = false := by
    cases hcon : (files.map entryName).contains (X ++ mp3Suffix) with
    | false => rfl
    | true =>
      exfalso
      have hmem : (X ++ mp3Suffix) ∈ files.map entryName := List.elem_iff.mp hcon
      have hmem2 : (X ++ mp3Suffix) ∈ (files.map entryName).filter isMp3Name :=
        List.mem_filter.mpr ⟨hmem, isMp3Name_append_mp3 X⟩
      rw [hmp3s] at hmem2
      have : X ++ mp3Suffix = M := by simpa using hmem2
      exact hM this.symm
  have hPmem : (X ++ pdfSuffix) ∈ files.map entryName :=
    List.mem_of_mem_filter (hpdfs ▸ List.mem_cons_self _ _)
  have hPp : isPdfName (X ++ pdfSuffix) = true :=
    (List.mem_filter.mp (hpdfs ▸ List.mem_cons_self _ _)).2
  have hM3 : isMp3Name M = true :=
    (List.mem_filter.mp (hmp3s ▸ List.mem_cons_self _ _)).2
  have hPM : X ++ pdfSuffix ≠ M := by
    intro he
    rw [← he] at hM3
    rw [not_isPdfName_of_isMp3Name _ hM3] at hPp
    exact Bool.noConfusion hPp
  have hfs : (processLeafL o p files).files = files.map (fun e =>
      if entryName e = M then
        match e with
        | Entry.file _ => Entry.file (X ++ mp3Suffix)
        | Entry.dir _ cs => Entry.dir (X ++ mp3Suffix) cs
      else e) := by
    have h1 : (processLeafL o p files).files = renameEntry files M (X ++ mp3Suffix) := by
      simp [processLeafL, hpdfs, hmp3s, hexp, hM, ho]
    rw [h1, renameEntry, hnotin]
    simp
  refine ⟨?_, ?_, hfs, ?_⟩
  · simp [processLeafL, hpdfs, hmp3s, hexp, hM, ho]
  · simp [processLeafL, hpdfs, hmp3s, hexp, hM, ho]
  · rw [hfs]
    obtain ⟨e, he, hne⟩ := List.mem_map.mp hPmem
    refine List.mem_map.mpr ⟨_, List.mem_map_of_mem _ he, ?_⟩
    have hdiff : entryName e ≠ M := by rw [hne]; exact hPM
    rw [if_neg hdiff]
    exact hne

/-- C7 witness: `x.pdf` with mismatched `y.mp3` gets renamed to `x.mp3` and
the leaf value stays `x.pdf`. -/
theorem C7_witness :
    (processLeafL (fun _ _ _ => true) [("d".toList : Name)]
        [Entry.file ("x.pdf".toList), Entry.file ("y.mp3".toList)]).value
      = MNode.leaf ("x".toList ++ pdfSuffix) ∧
    (processLeafL (fun _ _ _ => true) [("d".toList : Name)]
        [Entry.file ("x.pdf".toList), Entry.file ("y.mp3".toList)]).renames
      = [([("d".toList : Name)], ("y.mp3".toList : Name), "x".toList ++ mp3Suffix)] ∧
    (processLeafL (fun _ _ _ => true) [("d".toList : Name)]
        [Entry.file ("x.pdf".toList), Entry.file ("y.mp3".toList)]).files
      = [Entry.file ("x.pdf".toList), Entry.file ("y.mp3".toList)].map (fun e =>
          if entryName e = "y.mp3".toList then
            match e with
            | Entry.file _ => Entry.file ("x".toList ++ mp3Suffix)
            | Entry.dir _ cs => Entry.dir ("x".toList ++ mp3Suffix) cs
          else e) ∧
    ("x".toList ++ pdfSuffix) ∈ (processLeafL (fun _ _ _ => true) [("d".toList : Name)]
        [Entry.file ("x.pdf".toList), Entry.file ("y.mp3".toList)]).files.map entryName :=
  C7_rename_to_stem (fun _ _ _ => true) [("d".toList : Name)]
    [Entry.file ("x.pdf".toList), Entry.file ("y.mp3".toList)]
    ("x".toList) ("y.mp3".toList)
    (by decide) (by decide) (by decide) (by decide) (by decide)

/-- C7 counterexample: for the primary `a.pdf.pdf` (stem `a.pdf`) with
companion `b.mp3`, the code renames to `a.mp3.pdf` — not to the stem plus
`.mp3` (`a.pdf.mp3`) as the claim requires. -/
theorem C7_counterexample :
    (processLeafL (fun _ _ _ => true) [("d".toList : Name)]
        [Entry.file ("a.pdf.pdf".toList), Entry.file ("b.mp3".toList)]).renames
      = [([("d".toList : Name)], ("b.mp3".toList : Name), ("a.mp3.pdf".toList : Name))] ∧
    ("a.mp3.pdf".toList : Name) ≠ "a.pdf".toList ++ mp3Suffix := by decide

end ZeidyD

namespace ZeidyD

/-! Size bookkeeping (used for strong induction over the traversal). -/

theorem sizeOf_filter_le (q : Entry → Bool) (l : List Entry) :
    sizeOf (l.filter q) ≤ sizeOf l := by
  induction l with
  | nil => simp
  | cons a l ih =>
    simp only [List.filter_cons]
    split
    · simp only [List.cons.sizeOf_spec]; omega
    · simp only [List.cons.sizeOf_spec]; omega

theorem perm_sizeOf_eq {l₁ l₂ : List Entry} (h : l₁.Perm l₂) :
    sizeOf l₁ = sizeOf l₂ := by
  induction h with
  | nil => rfl
  | cons x _ ih => simp only [List.cons.sizeOf_spec]; omega
  | swap x y l => simp only [List.cons.sizeOf_spec]; omega
  | trans _ _ ih₁ ih₂ => omega

theorem sizeOf_sortEntries (l : List Entry) : sizeOf (sortEntries l) = sizeOf l :=
  perm_sizeOf_eq (List.perm_insertionSort _ l)

/-- The value stored for a leaf depends only on the PDF filter of its listing:
`null` when empty, the first listed PDF otherwise. -/
theorem processLeafL_value (o : RenameOracle) (p : List Name) (files : List Entry) :
    (processLeafL o p files).value =
      (match (files.map entryName).filter isPdfName with
       | [] => MNode.nullLeaf
       | pdfFile :: _ => MNode.leaf pdfFile) := by
  simp only [processLeafL]
  cases hpdfs : (files.map entryName).filter isPdfName with
  | nil => rfl
  | cons a l =>
    cases l with
    | nil =>
      cases hmp3s : (files.map entryName).filter isMp3Name with
      | nil => rfl
      | cons b l2 =>
        cases l2 with
        | nil =>
          by_cases hb : b = expectedMp3Name a
          · simp [hb]
          · cases ho : o p b (expectedMp3Name a) <;> simp [hb, ho]
        | cons c l3 => rfl
    | cons bb ll => rfl

/-- The manifest object produced by the traversal does not depend on the
rename oracle, the relative path, or the depth counter (the depth feeds only
the progress log). -/
theorem goL_node_congr :
    ∀ (N : Nat) (l : List Entry), sizeOf l ≤ N →
      ∀ (o o' : RenameOracle) (p p' : List Name) (d d' : Nat),
        (goL o p d l).node = (goL o' p' d' l).node := by
  intro N
  induction N with
  | zero =>
    intro l hl
    cases l with
    | nil => intro o o' p p' d d'; rw [goL_nil, goL_nil]
    | cons e rest =>
      exfalso
      simp only [List.cons.sizeOf_spec] at hl
      omega
  | succ N ih =>
    intro l hl o o' p p' d d'
    cases l with
    | nil => rw [goL_nil, goL_nil]
    | cons e rest =>
      have hrest : sizeOf rest ≤ N := by
        simp only [List.cons.sizeOf_spec] at hl
        omega
      cases e with
      | file m =>
        rw [goL_file, goL_file]
        exact ih rest hrest o o' p p' d d'
      | dir n cs =>
        cases hc : checkForContent cs with
        | true =>
          simp only [goL_leaf _ _ _ _ _ _ hc]
          rw [processLeafL_value o (p ++ [n]) cs, processLeafL_value o' (p' ++ [n]) cs,
            ih rest hrest o o' p p' d d']
        | false =>
          simp only [goL_branch _ _ _ _ _ _ hc]
          have hsub : sizeOf (sortEntries (cs.filter isDirE)) ≤ N := by
            rw [sizeOf_sortEntries]
            have h2 := sizeOf_filter_le isDirE cs
            simp only [List.cons.sizeOf_spec, Entry.dir.sizeOf_spec] at hl
            omega
          rw [ih _ hsub o o' (p ++ [n]) (p' ++ [n]) (d + 1) (d' + 1),
            ih rest hrest o o' p p' d d']

/-! Facts about the single-branch chain tree. -/

theorem entryName_chain (n : Nat) : entryName (chainE n) = "c".toList := by
  cases n <;> rfl

theorem isDirE_chain (n : Nat) : isDirE (chainE n) = true := by
  cases n <;> rfl

theorem checkForContent_chain (n : Nat) : checkForContent [chainE n] = false := by
  have h1 := entryName_chain n
  have h2 := isDirE_chain n
  simp [checkForContent, h1, h2]
  decide

theorem sortEntries_chain (n : Nat) :
    sortEntries ([chainE n].filter isDirE) = [chainE n] := by
  rw [List.filter_cons, if_pos (by rw [isDirE_chain])]
  rfl

/-- Scanning the depth-`n` chain produces a manifest of nesting depth `n + 1`
for every starting depth `d`: the traversal never cuts off by depth. -/
theorem scanL_chain_depth (oracle : RenameOracle) :
    ∀ (n : Nat) (p : List Name) (d : Nat),
      nodeDepth (MNode.branch (scanL oracle p d [chainE n]).node) = n + 1 := by
  intro n
  induction n with
  | zero =>
    intro p d
    have hnode : (scanL oracle p d [chainE 0]).node
        = [(("c".toList : Name), MNode.leaf ("x.pdf".toList))] := by
      rw [scanL, sortEntries_chain 0]
      rw [show chainE 0 = Entry.dir ("c".toList) [Entry.file ("x.pdf".toList)] from rfl]
      rw [goL_leaf _ _ _ _ _ _ (by decide), goL_nil]
      have hv := processLeafL_value oracle (p ++ ["c".toList]) [Entry.file ("x.pdf".toList)]
      rw [show (([Entry.file ("x.pdf".toList)].map entryName).filter isPdfName)
          = [("x.pdf".toList : Name)] from by decide] at hv
      rw [hv]
    rw [hnode]
    rfl
  | succ m ih =>
    intro p d
    rw [scanL, sortEntries_chain (m + 1)]
    rw [show chainE (m + 1) = Entry.dir ("c".toList) [chainE m] from rfl]
    rw [goL_branch _ _ _ _ _ _ (checkForContent_chain m), goL_nil]
    have hin := ih (p ++ ["c".toList]) (d + 1)
    rw [scanL] at hin
    simp only [nodeDepth, listDepth]
    simp only [nodeDepth, listDepth] at hin
    omega

end ZeidyD

namespace ZeidyD

/-- C3 (corrected claim, what actually holds): the depth counter is threaded
through the recursion but feeds only the progress log — the produced manifest
is identical for every starting depth (and path and oracle), and no branch is
ever skipped for depth: scanning the single-branch chain of any length `n`
yields a manifest nested `n + 1` deep, so there is no maximum-depth abort. -/
theorem C3_no_depth_cap :
    (∀ (o o' : RenameOracle) (p p' : List Name) (d d' : Nat) (es : List Entry),
      (scanL o p d es).node = (scanL o' p' d' es).node) ∧
    (∀ (o : RenameOracle) (p : List Name) (d n : Nat),
      nodeDepth (MNode.branch (scanL o p d [chainE n]).node) = n + 1) := by
  constructor
  · intro o o' p p' d d' es
    rw [scanL, scanL]
    exact goL_node_congr (sizeOf (sortEntries (es.filter isDirE))) _ le_rfl o o' p p' d d'
  · intro o p d n
    exact scanL_chain_depth o n p d

/-- C3 counterexample: the scan descends through a chain of 12 nested
directories (depth 12 manifest), well past the claimed on-the-order-of-10
cap — no warning-and-skip ever happens. -/
theorem C3_counterexample :
    nodeDepth (MNode.branch
      (scanL (fun _ _ _ => true) [] 0 [chainE 11]).node) = 12 ∧ 10 < 12 :=
  ⟨scanL_chain_depth (fun _ _ _ => true) 11 [] 0, by omega⟩

/-! Step equations for the interactive traversal loop. -/

theorem goI_nil (answers : Answers) (o : RenameOracle) (p : List Name) (d : Nat)
    (idx : Nat) : goI answers o p d [] idx = .ok ⟨[], [], idx, [], [], [], []⟩ := by
  simp [goI]

theorem goI_file (answers : Answers) (o : RenameOracle) (p : List Name) (d : Nat)
    (m : Name) (rest : List Entry) (idx : Nat) :
    goI answers o p d (.file m :: rest) idx = goI answers o p d rest idx := by
  simp [goI]

theorem goI_leaf (answers : Answers) (o : RenameOracle) (p : List Name) (d : Nat)
    (n : Name) (cs rest : List Entry) (idx : Nat)
    (h : checkForContent cs = true) :
    goI answers o p d (.dir n cs :: rest) idx =
      (match processLeafI answers o (p ++ [n]) cs idx with
       | .error a => .error a
       | .ok lo =>
         match goI answers o p d rest lo.idx with
         | .error a => .error a
         | .ok r =>
           .ok ⟨(n, lo.value) :: r.node, (n, lo.files) :: r.upds, r.idx,
             lo.prompts ++ r.prompts, lo.renames ++ r.renames,
             lo.warns.map (fun w => (p ++ [n], w)) ++ r.warns,
             (d, n) :: r.logs⟩) := by
  rw [goI]
  simp [h]

theorem goI_branch (answers : Answers) (o : RenameOracle) (p : List Name) (d : Nat)
    (n : Name) (cs rest : List Entry) (idx : Nat)
    (h : checkForContent cs = false) :
    goI answers o p d (.dir n cs :: rest) idx =
      (match goI answers o (p ++ [n]) (d + 1) (sortEntries (cs.filter isDirE)) idx with
       | .error a => .error a
       | .ok sub =>
         match goI answers o p d rest sub.idx with
         | .error a => .error a
         | .ok r =>
           .ok ⟨(n, .branch sub.node) :: r.node,
             (n, applyUpd cs sub.upds) :: r.upds, r.idx,
             sub.prompts ++ r.prompts, sub.renames ++ r.renames,
             sub.warns ++ r.warns, (d, n) :: (sub.logs ++ r.logs)⟩) := by
  rw [goI]
  simp [h]

end ZeidyD

namespace ZeidyD

/-- Every prompt recorded by a *successfully completed* leaf was answered with
something other than `q`/`quit` — a quit answer always aborts instead. -/
theorem processLeafI_ok_prompts (answers : Answers) (o : RenameOracle)
    (p : List Name) (files : List Entry) (idx : Nat) (lo : LeafOutI)
    (h : processLeafI answers o p files idx = .ok lo) :
    ∀ pr ∈ lo.prompts, isQuitAnswer pr.2.2.2 = false := by
  simp only [processLeafI] at h
  split at h
  · cases h
    intro pr hpr
    simp at hpr
  · split at h
    · exact Except.noConfusion h
    · split at h
      · cases h
        intro pr hpr
        simp at hpr
      · split at h
        · exact Except.noConfusion h
        · rename_i hq
          split at h
          · split at h
            · cases h
              intro pr hpr
              simp at hpr
              rw [hpr]
              simpa using hq
            · exact Except.noConfusion h
          · cases h
            intro pr hpr
            simp at hpr
            rw [hpr]
            simpa using hq
    · cases h
      intro pr hpr
      simp at hpr
  · exact Except.noConfusion h

/-- Every prompt recorded by a completed interactive traversal was answered
with something other than `q`/`quit`. -/
theorem goI_ok_prompts :
    ∀ (N : Nat) (l : List Entry), sizeOf l ≤ N →
      ∀ (answers : Answers) (o : RenameOracle) (p : List Name) (d idx : Nat)
        (out : OutI), goI answers o p d l idx = .ok out →
        ∀ pr ∈ out.prompts, isQuitAnswer pr.2.2.2 = false := by
  intro N
  induction N with
  | zero =>
    intro l hl
    cases l with
    | nil =>
      intro answers o p d idx out hout pr hpr
      rw [goI_nil] at hout
      cases hout
      simp at hpr
    | cons e rest =>
      exfalso
      simp only [List.cons.sizeOf_spec] at hl
      omega
  | succ N ih =>
    intro l hl answers o p d idx out hout pr hpr
    cases l with
    | nil =>
      rw [goI_nil] at hout
      cases hout
      simp at hpr
    | cons e rest =>
      have hrest : sizeOf rest ≤ N := by
        simp only [List.cons.sizeOf_spec] at hl
        omega
      cases e with
      | file m =>
        rw [goI_file] at hout
        exact ih rest hrest answers o p d idx out hout pr hpr
      | dir n cs =>
        cases hc : checkForContent cs with
        | true =>
          rw [goI_leaf _ _ _ _ _ _ _ _ hc] at hout
          cases hpl : processLeafI answers o (p ++ [n]) cs idx with
          | error a => simp only [hpl] at hout; exact Except.noConfusion hout
          | ok lo =>
            simp only [hpl] at hout
            cases hrec : goI answers o p d rest lo.idx with
            | error a => simp only [hrec] at hout; exact Except.noConfusion hout
            | ok r =>
              simp only [hrec] at hout
              cases hout
              rcases List.mem_append.mp hpr with h1 | h2
              · exact processLeafI_ok_prompts answers o (p ++ [n]) cs idx lo hpl pr h1
              · exact ih rest hrest answers o p d lo.idx r hrec pr h2
        | false =>
          rw [goI_branch _ _ _ _ _ _ _ _ hc] at hout
          have hsub : sizeOf (sortEntries (cs.filter isDirE)) ≤ N := by
            rw [sizeOf_sortEntries]
            have h2 := sizeOf_filter_le isDirE cs
            simp only [List.cons.sizeOf_spec, Entry.dir.sizeOf_spec] at hl
            omega
          cases hs : goI answers o (p ++ [n]) (d + 1) (sortEntries (cs.filter isDirE)) idx with
          | error a => simp only [hs] at hout; exact Except.noConfusion hout
          | ok sub =>
            simp only [hs] at hout
            cases hrec : goI answers o p d rest sub.idx with
            | error a => simp only [hrec] at hout; exact Except.noConfusion hout
            | ok r =>
              simp only [hrec] at hout
              cases hout
              rcases List.mem_append.mp hpr with h1 | h2
              · exact ih _ hsub answers o (p ++ [n]) (d + 1) idx sub hs pr h1
              · exact ih rest hrest answers o p d sub.idx r hrec pr h2

/-- C1 (amended): a `q`/`quit` answer at a rename prompt aborts the whole
interactive scan immediately (no completed run ever records a quit-answered
prompt), the manifest accumulated so far is discarded — no file write
happens — and the process exits with status 0 (`process.exit(0)`), not with a
non-zero status as the claim says. -/
theorem C1_quit_aborts :
    (∀ (answers : Answers) (o : RenameOracle) (es : List Entry),
      scanI answers o es = .error .userQuit →
        buildI answers o (some es) = ([], 0)) ∧
    (∀ (answers : Answers) (o : RenameOracle) (es : List Entry) (out : OutI),
      scanI answers o es = .ok out →
        ∀ pr ∈ out.prompts, isQuitAnswer pr.2.2.2 = false) := by
  constructor
  · intro answers o es h
    simp [buildI, h, AbortI.exitCode]
  · intro answers o es out h
    exact goI_ok_prompts (sizeOf (sortEntries (es.filter isDirE))) _ le_rfl
      answers o [] 0 0 out h

/-- C1 witness: a concrete interactive run in which the single prompt is
answered `q` — the run exits 0 and writes nothing. -/
theorem C1_witness :
    buildI (fun _ => "q".toList) (fun _ _ _ => true)
      (some [Entry.dir ("d".toList)
        [Entry.file ("X.pdf".toList), Entry.file ("Y.mp3".toList)]]) = ([], 0) :=
  C1_quit_aborts.1 (fun _ => "q".toList) (fun _ _ _ => true)
    [Entry.dir ("d".toList) [Entry.file ("X.pdf".toList), Entry.file ("Y.mp3".toList)]]
    (by
      simp [scanI, goI, sortEntries, List.insertionSort, checkForContent, entryName,
        isDirE, processLeafI, metaName, isPdfName, isMp3Name, lowerName, normalizeAnswer,
        trimName, isWsChar, isQuitAnswer, expectedMp3Name, replaceFirst, pdfSuffix,
        mp3Suffix]
      decide)

/-- C1 counterexample: the claim as stated requires a non-zero exit status on
quit; the concrete quit run exits with status 0. -/
theorem C1_counterexample :
    (buildI (fun _ => "quit".toList) (fun _ _ _ => true)
      (some [Entry.dir ("book".toList)
        [Entry.file ("a.pdf".toList), Entry.file ("b.mp3".toList)]])).2 = 0 := by
  simp [buildI, scanI, goI, sortEntries, List.insertionSort, checkForContent, entryName,
    isDirE, processLeafI, metaName, isPdfName, isMp3Name, lowerName, normalizeAnswer,
    trimName, isWsChar, isQuitAnswer, expectedMp3Name, replaceFirst, pdfSuffix,
    mp3Suffix, AbortI.exitCode]
  decide

end ZeidyD

namespace ZeidyD

/-! Claim C5: policy on secondary-rename filesystem failures. -/

/-- C5 (amended): in the lenient/auto revision a failed rename is surfaced as
a non-fatal `renameFailed` warning, the listing is left untouched, and the
scan still completes and writes the whole manifest with exit 0; in the
interactive revision, however, a filesystem rename failure after a `y` answer
aborts the run with exit 1 and no manifest write — fatal abort on rename
failure does occur in that mode. -/
theorem C5_rename_failure :
    (∀ (o : RenameOracle) (es : List Entry),
      buildL o (some es) = ([serializeTop (scanL o [] 0 es).node], 0)) ∧
    (∀ (o : RenameOracle) (p : List Name) (d : Nat) (es : List Entry)
        (n : Name) (cs : List Entry) (P M : Name),
      Entry.dir n cs ∈ es →
      (cs.map entryName).filter isPdfName = [P] →
      (cs.map entryName).filter isMp3Name = [M] →
      M ≠ expectedMp3Name P →
      o (p ++ [n]) M (expectedMp3Name P) = false →
      (p ++ [n], Warn.renameFailed) ∈ (scanL o p d es).warns ∧
      (processLeafL o (p ++ [n]) cs).files = cs) ∧
    (∀ (answers : Answers) (o : RenameOracle) (es : List Entry)
        (q : List Name) (oldM newM : Name),
      scanI answers o es = .error (.renameFail q oldM newM) →
        buildI answers o (some es) = ([], 1)) := by
  refine ⟨fun o es => rfl, ?_, ?_⟩
  · intro o p d es n cs P M hmem hpdfs hmp3s hM ho
    have h0 : P ∈ (cs.map entryName).filter isPdfName := by
      rw [hpdfs]; exact List.mem_cons_self _ _
    have hany : (cs.map entryName).any isPdfName = true := by
      rw [List.any_eq_true]
      exact ⟨P, List.mem_of_mem_filter h0, (List.mem_filter.mp h0).2⟩
    have hc : checkForContent cs = true := by
      simp [checkForContent, hany]
    have hwm : Warn.renameFailed ∈ (processLeafL o (p ++ [n]) cs).warns := by
      simp [processLeafL, hpdfs, hmp3s, hM, ho]
    have hfs : (processLeafL o (p ++ [n]) cs).files = cs := by
      simp [processLeafL, hpdfs, hmp3s, hM, ho]
    exact ⟨(scanL_mem_leaf o p d hmem hc).2 _ hwm, hfs⟩
  · intro answers o es q oldM newM h
    simp [buildI, h, AbortI.exitCode]

/-- C5 witness: the amended statement at concrete inputs — a lenient run whose
only rename fails still writes its manifest and records the warning, and an
interactive run whose rename fails aborts with exit 1. -/
theorem C5_witness :
    buildL (fun _ _ _ => false)
        (some [Entry.dir ("d".toList)
          [Entry.file ("X.pdf".toList), Entry.file ("Y.mp3".toList)]])
      = ([serializeTop (scanL (fun _ _ _ => false) [] 0
          [Entry.dir ("d".toList)
            [Entry.file ("X.pdf".toList), Entry.file ("Y.mp3".toList)]]).node], 0) ∧
    (([] ++ [("d".toList : Name)], Warn.renameFailed)
      ∈ (scanL (fun _ _ _ => false) [] 0
          [Entry.dir ("d".toList)
            [Entry.file ("X.pdf".toList), Entry.file ("Y.mp3".toList)]]).warns) ∧
    buildI (fun _ => "y".toList) (fun _ _ _ => false)
        (some [Entry.dir ("d".toList)
          [Entry.file ("X.pdf".toList), Entry.file ("Y.mp3".toList)]])
      = ([], 1) :=
  ⟨C5_rename_failure.1 (fun _ _ _ => false) _,
    (C5_rename_failure.2.1 (fun _ _ _ => false) [] 0 _ ("d".toList)
      [Entry.file ("X.pdf".toList), Entry.file ("Y.mp3".toList)]
      ("X.pdf".toList) ("Y.mp3".toList)
      (by decide) (by decide) (by decide) (by decide) (by decide)).1,
    C5_rename_failure.2.2 (fun _ => "y".toList) (fun _ _ _ => false) _
      [("d".toList : Name)] ("Y.mp3".toList) ("X.mp3".toList)
      (by
        simp [scanI, goI, sortEntries, List.insertionSort, checkForContent, entryName,
          isDirE, processLeafI, metaName, isPdfName, isMp3Name, lowerName,
          normalizeAnswer, trimName, isWsChar, isQuitAnswer, isYesAnswer,
          expectedMp3Name, replaceFirst, pdfSuffix, mp3Suffix]
        decide)⟩

/-- C5 counterexample: the claim requires rename failures to be non-fatal in
every scan mode, but the interactive revision aborts with exit 1 and writes
no manifest when the rename fails. -/
theorem C5_counterexample :
    buildI (fun _ => "yes".toList) (fun _ _ _ => false)
        (some [Entry.dir ("shiur".toList)
          [Entry.file ("a.pdf".toList), Entry.file ("b.mp3".toList)]])
      = ([], 1) ∧ (1 : Nat) ≠ 0 := by
  refine ⟨?_, by decide⟩
  simp [buildI, scanI, goI, sortEntries, List.insertionSort, checkForContent, entryName,
    isDirE, processLeafI, metaName, isPdfName, isMp3Name, lowerName, normalizeAnswer,
    trimName, isWsChar, isQuitAnswer, isYesAnswer, expectedMp3Name, replaceFirst,
    pdfSuffix, mp3Suffix, AbortI.exitCode]
  decide

end ZeidyD

namespace ZeidyD

/-! Well-formedness: name-keyed lookup identifies subtree members. -/

theorem wfFS_findDir :
    ∀ es : List Entry, wfFS es = true →
      ∀ (n : Name) (cs : List Entry), Entry.dir n cs ∈ es →
        findDir es n = some cs := by
  intro es
  induction es with
  | nil => intro _ n cs h; simp at h
  | cons e rest ih =>
    intro hwf n cs hmem
    cases e with
    | file m =>
      simp only [wfFS, wfE, entryName, Bool.and_eq_true] at hwf
      rcases List.mem_cons.mp hmem with he | he
      · exact Entry.noConfusion he
      · simp only [findDir]
        exact ih hwf.2 n cs he
    | dir m cs' =>
      simp only [wfFS, wfE, entryName, Bool.and_eq_true] at hwf
      rcases List.mem_cons.mp hmem with he | he
      · injection he with h1 h2
        subst h1; subst h2
        simp [findDir]
      · have hnmem : n ∈ rest.map entryName :=
          List.mem_map.mpr ⟨Entry.dir n cs, he, rfl⟩
        have hne : m ≠ n := by
          intro hmn
          subst hmn
          have hcon := hwf.1.1
          rw [Bool.not_eq_true'] at hcon
          rw [← List.elem_iff] at hnmem
          have hc2 : (List.map entryName rest).contains m = true := hnmem
          exact Bool.noConfusion (hc2.symm.trans hcon)
        simp only [findDir, if_neg hne]
        exact ih hwf.2 n cs he

theorem wfFS_sub :
    ∀ es : List Entry, wfFS es = true →
      ∀ (n : Name) (cs : List Entry), Entry.dir n cs ∈ es →
        wfFS cs = true := by
  intro es
  induction es with
  | nil => intro _ n cs h; simp at h
  | cons e rest ih =>
    intro hwf n cs hmem
    cases e with
    | file m =>
      simp only [wfFS, wfE, entryName, Bool.and_eq_true] at hwf
      rcases List.mem_cons.mp hmem with he | he
      · exact Entry.noConfusion he
      · exact ih hwf.2 n cs he
    | dir m cs' =>
      simp only [wfFS, wfE, entryName, Bool.and_eq_true] at hwf
      rcases List.mem_cons.mp hmem with he | he
      · injection he with h1 h2
        subst h1; subst h2
        exact hwf.1.2
      · exact ih hwf.2 n cs he

/-- The multiple-PDFs abort of the interactive leaf handler carries the leaf's
own path and the complete filtered PDF list, which has at least two names. -/
theorem processLeafI_multiPdf (answers : Answers) (o : RenameOracle)
    (pp : List Name) (files : List Entry) (idx : Nat) (q : List Name)
    (fl : List Name)
    (h : processLeafI answers o pp files idx = .error (.multiPdf q fl)) :
    q = pp ∧ fl = (files.map entryName).filter isPdfName ∧ 2 ≤ fl.length := by
  simp only [processLeafI] at h
  split at h
  · exact Except.noConfusion h
  · split at h
    · simp at h
    · split at h
      · exact Except.noConfusion h
      · split at h
        · simp at h
        · split at h
          · split at h
            · exact Except.noConfusion h
            · simp at h
          · exact Except.noConfusion h
    · exact Except.noConfusion h
  · rename_i a b t heq
    simp only [Except.error.injEq, AbortI.multiPdf.injEq] at h
    refine ⟨h.1.symm, ?_, ?_⟩
    · rw [← h.2, heq]
    · rw [← h.2, heq]
      simp

end ZeidyD

namespace ZeidyD

/-- The multiple-PDFs abort of the whole interactive traversal always carries
the path of a real directory of the scanned tree and that directory's complete
(≥ 2 names) PDF filter. -/
theorem goI_multiPdf_loc :
    ∀ (N : Nat) (l : List Entry), sizeOf l ≤ N →
      ∀ (answers : Answers) (o : RenameOracle) (es : List Entry) (p : List Name)
        (d idx : Nat) (q : List Name) (fl : List Name),
        (∀ (n : Name) (cs : List Entry), Entry.dir n cs ∈ l →
          findDir es n = some cs ∧ wfFS cs = true) →
        goI answers o p d l idx = .error (.multiPdf q fl) →
        ∃ (suffix : List Name) (cs : List Entry), q = p ++ suffix ∧
          dirAt es suffix = some cs ∧
          fl = (cs.map entryName).filter isPdfName ∧ 2 ≤ fl.length := by
  intro N
  induction N with
  | zero =>
    intro l hl
    cases l with
    | nil =>
      intro answers o es p d idx q fl _ h
      rw [goI_nil] at h
      exact Except.noConfusion h
    | cons e rest =>
      exfalso
      simp only [List.cons.sizeOf_spec] at hl
      omega
  | succ N ih =>
    intro l hl answers o es p d idx q fl hinv h
    cases l with
    | nil =>
      rw [goI_nil] at h
      exact Except.noConfusion h
    | cons e rest =>
      have hrest : sizeOf rest ≤ N := by
        simp only [List.cons.sizeOf_spec] at hl
        omega
      cases e with
      | file m =>
        rw [goI_file] at h
        exact ih rest hrest answers o es p d idx q fl
          (fun n' cs' hm => hinv n' cs' (List.mem_cons_of_mem _ hm)) h
      | dir n cs =>
        have hfd := hinv n cs (List.mem_cons_self _ _)
        cases hc : checkForContent cs with
        | true =>
          rw [goI_leaf _ _ _ _ _ _ _ _ hc] at h
          cases hpl : processLeafI answers o (p ++ [n]) cs idx with
          | error a =>
            simp only [hpl] at h
            injection h with ha
            subst ha
            obtain ⟨hq, hfl, hlen⟩ :=
              processLeafI_multiPdf answers o (p ++ [n]) cs idx q fl hpl
            exact ⟨[n], cs, by rw [hq], by simp [dirAt, hfd.1], hfl, hlen⟩
          | ok lo =>
            simp only [hpl] at h
            cases hrec : goI answers o p d rest lo.idx with
            | error a =>
              simp only [hrec] at h
              injection h with ha
              subst ha
              exact ih rest hrest answers o es p d lo.idx q fl
                (fun n' cs' hm => hinv n' cs' (List.mem_cons_of_mem _ hm)) hrec
            | ok r =>
              simp only [hrec] at h
              exact Except.noConfusion h
        | false =>
          rw [goI_branch _ _ _ _ _ _ _ _ hc] at h
          cases hs : goI answers o (p ++ [n]) (d + 1)
              (sortEntries (cs.filter isDirE)) idx with
          | error a =>
            simp only [hs] at h
            injection h with ha
            subst ha
            have hinv' : ∀ (m : Name) (cs' : List Entry),
                Entry.dir m cs' ∈ sortEntries (cs.filter isDirE) →
                  findDir cs m = some cs' ∧ wfFS cs' = true := by
              intro m cs' hm
              have hm2 : Entry.dir m cs' ∈ cs :=
                List.mem_of_mem_filter
                  ((List.perm_insertionSort entryLeP (cs.filter isDirE)).mem_iff.mp hm)
              exact ⟨wfFS_findDir cs hfd.2 m cs' hm2, wfFS_sub cs hfd.2 m cs' hm2⟩
            have hsub : sizeOf (sortEntries (cs.filter isDirE)) ≤ N := by
              rw [sizeOf_sortEntries]
              have h2 := sizeOf_filter_le isDirE cs
              simp only [List.cons.sizeOf_spec, Entry.dir.sizeOf_spec] at hl
              omega
            obtain ⟨suffix', cs'', hq, hda, hfl, hlen⟩ :=
              ih _ hsub answers o cs (p ++ [n]) (d + 1) idx q fl hinv' hs
            refine ⟨n :: suffix', cs'', by rw [hq]; simp, ?_, hfl, hlen⟩
            simp only [dirAt, hfd.1]
            exact hda
          | ok sub =>
            simp only [hs] at h
            cases hrec : goI answers o p d rest sub.idx with
            | error a =>
              simp only [hrec] at h
              injection h with ha
              subst ha
              exact ih rest hrest answers o es p d sub.idx q fl
                (fun n' cs' hm => hinv n' cs' (List.mem_cons_of_mem _ hm)) hrec
            | ok r =>
              simp only [hrec] at h
              exact Except.noConfusion h

/-- C6: a run never writes a partially built manifest.  A missing root exits 1
with no write; a completed scan performs exactly one whole-file write of the
serialized manifest and exits 0; the strict multiple-primary abort exits 1
with no write, and its diagnostic carries the offending directory's complete
PDF list (at least two files, exactly the PDF filter of a directory reachable
at the reported path).  The lenient revision likewise writes nothing when the
root is missing and otherwise performs its single whole write at the end. -/
theorem C6_no_partial_write :
    (∀ (answers : Answers) (o : RenameOracle), buildI answers o none = ([], 1)) ∧
    (∀ (answers : Answers) (o : RenameOracle) (es : List Entry) (out : OutI),
      scanI answers o es = .ok out →
        buildI answers o (some es) = ([serializeTop out.node], 0)) ∧
    (∀ (answers : Answers) (o : RenameOracle) (es : List Entry)
        (q : List Name) (fl : List Name),
      scanI answers o es = .error (.multiPdf q fl) →
        buildI answers o (some es) = ([], 1)) ∧
    (∀ (answers : Answers) (o : RenameOracle) (es : List Entry)
        (q : List Name) (fl : List Name), wfFS es = true →
      scanI answers o es = .error (.multiPdf q fl) →
        ∃ cs : List Entry, dirAt es q = some cs ∧
          fl = (cs.map entryName).filter isPdfName ∧ 2 ≤ fl.length) ∧
    (∀ o : RenameOracle, buildL o none = ([], 1)) ∧
    (∀ (o : RenameOracle) (es : List Entry),
      buildL o (some es) = ([serializeTop (scanL o [] 0 es).node], 0)) := by
  refine ⟨fun answers o => rfl, ?_, ?_, ?_, fun o => rfl, fun o es => rfl⟩
  · intro answers o es out h
    simp [buildI, h]
  · intro answers o es q fl h
    simp [buildI, h, AbortI.exitCode]
  · intro answers o es q fl hwf h
    have hinv : ∀ (n : Name) (cs : List Entry),
        Entry.dir n cs ∈ sortEntries (es.filter isDirE) →
          findDir es n = some cs ∧ wfFS cs = true := by
      intro n cs hm
      have hm2 : Entry.dir n cs ∈ es :=
        List.mem_of_mem_filter
          ((List.perm_insertionSort entryLeP (es.filter isDirE)).mem_iff.mp hm)
      exact ⟨wfFS_findDir es hwf n cs hm2, wfFS_sub es hwf n cs hm2⟩
    obtain ⟨suffix, cs, hq, hda, hfl, hlen⟩ :=
      goI_multiPdf_loc (sizeOf (sortEntries (es.filter isDirE))) _ le_rfl
        answers o es [] 0 0 q fl hinv h
    refine ⟨cs, ?_, hfl, hlen⟩
    rw [hq]
    simpa using hda

/-- C6 witness: a strict-mode run over a leaf with two PDFs aborts with the
multiple-PDF diagnostic naming both files, exits 1 with no write, and the
reported path resolves to the offending directory. -/
theorem C6_witness :
    buildI (fun _ => "y".toList) (fun _ _ _ => true)
        (some [Entry.dir ("d".toList)
          [Entry.file ("A.pdf".toList), Entry.file ("B.pdf".toList)]]) = ([], 1) ∧
    ∃ cs : List Entry,
      dirAt [Entry.dir ("d".toList)
          [Entry.file ("A.pdf".toList), Entry.file ("B.pdf".toList)]]
          [("d".toList : Name)] = some cs ∧
      ([("A.pdf".toList : Name), ("B.pdf".toList : Name)])
          = (cs.map entryName).filter isPdfName ∧
      2 ≤ ([("A.pdf".toList : Name), ("B.pdf".toList : Name)] : List Name).length := by
  have hscan : scanI (fun _ => "y".toList) (fun _ _ _ => true)
      [Entry.dir ("d".toList)
        [Entry.file ("A.pdf".toList), Entry.file ("B.pdf".toList)]]
      = .error (.multiPdf [("d".toList : Name)]
          [("A.pdf".toList : Name), ("B.pdf".toList : Name)]) := by
    simp [scanI, goI, sortEntries, List.insertionSort, checkForContent, entryName,
      isDirE, processLeafI, metaName, isPdfName, isMp3Name, lowerName,
      expectedMp3Name, replaceFirst, pdfSuffix, mp3Suffix]
  exact ⟨C6_no_partial_write.2.2.1 (fun _ => "y".toList) (fun _ _ _ => true)
      _ _ _ hscan,
    C6_no_partial_write.2.2.2.1 (fun _ => "y".toList) (fun _ _ _ => true)
      _ _ _ (by decide) hscan⟩

end ZeidyD

namespace ZeidyD

/-! Claim C8: branch keys are the sorted subdirectory names. -/

theorem sorted_map_name_sortEntries (l : List Entry) :
    List.Sorted nameLeP ((sortEntries l).map entryName) := by
  have hs : List.Sorted entryLeP (sortEntries l) :=
    List.sorted_insertionSort entryLeP l
  exact List.Pairwise.map entryName (fun a b h => h) hs

/-- C8: for a directory containing only subdirectories (with the distinct
names every real filesystem guarantees), the branch produced for it has as its
keys exactly the subdirectory names sorted lexicographically (code-point
order), whatever order the directory listing is returned in. -/
theorem C8_branch_keys_sorted (o : RenameOracle) (p : List Name) (d : Nat)
    (es es' : List Entry)
    (hperm : es'.Perm es)
    (hdirs : ∀ e ∈ es, isDirE e = true)
    (hnodup : (es.map entryName).Nodup) :
    (scanL o p d es').node.map Prod.fst = sortedNames (es.map entryName) := by
  rw [scanL, goL_keys]
  have hall : ∀ e ∈ sortEntries (es'.filter isDirE), isDirE e = true := by
    intro e he
    have h1 : e ∈ es'.filter isDirE :=
      (List.perm_insertionSort entryLeP (es'.filter isDirE)).mem_iff.mp he
    exact (List.mem_filter.mp h1).2
  rw [List.filter_eq_self.mpr hall]
  refine List.eq_of_perm_of_sorted ?_ (sorted_map_name_sortEntries _)
    (List.sorted_insertionSort nameLeP _)
  have h1 : ((sortEntries (es'.filter isDirE)).map entryName).Perm
      ((es'.filter isDirE).map entryName) :=
    (List.perm_insertionSort entryLeP (es'.filter isDirE)).map entryName
  have h2 : ((es'.filter isDirE).map entryName).Perm
      ((es.filter isDirE).map entryName) :=
    (hperm.filter isDirE).map entryName
  have h3 : (es.filter isDirE).map entryName = es.map entryName := by
    rw [List.filter_eq_self.mpr hdirs]
  have h4 : (es.map entryName).Perm (sortedNames (es.map entryName)) :=
    (List.perm_insertionSort nameLeP (es.map entryName)).symm
  exact ((h1.trans h2).trans (h3 ▸ h4))

/-- C8 witness: the two-subdirectory listing returned in reversed order still
produces the branch keys in sorted order. -/
theorem C8_witness :
    (scanL (fun _ _ _ => true) [] 0
        [Entry.dir ("a".toList) [], Entry.dir ("b".toList) []]).node.map Prod.fst
      = sortedNames [("b".toList : Name), ("a".toList : Name)] :=
  C8_branch_keys_sorted (fun _ _ _ => true) [] 0
    [Entry.dir ("b".toList) [], Entry.dir ("a".toList) []]
    [Entry.dir ("a".toList) [], Entry.dir ("b".toList) []]
    (List.Perm.swap (Entry.dir ("b".toList) []) (Entry.dir ("a".toList) []) [])
    (by decide) (by decide)

end ZeidyD

namespace ZeidyD

/-! Shape preservation of `applyUpd` and its interplay with sorting. -/

theorem entryName_updOne (u : List (Name × List Entry)) (e : Entry) :
    entryName (updOne u e) = entryName e := by
  cases e with
  | file m => rfl
  | dir m cs =>
    simp only [updOne]
    cases lookupUpd u m <;> rfl

theorem isDirE_updOne (u : List (Name × List Entry)) (e : Entry) :
    isDirE (updOne u e) = isDirE e := by
  cases e with
  | file m => rfl
  | dir m cs =>
    simp only [updOne]
    cases lookupUpd u m <;> rfl

theorem names_applyUpd (l : List Entry) (u : List (Name × List Entry)) :
    (applyUpd l u).map entryName = l.map entryName := by
  rw [applyUpd, List.map_map]
  exact List.map_congr_left (fun e _ => entryName_updOne u e)

theorem filter_isDirE_applyUpd (l : List Entry) (u : List (Name × List Entry)) :
    (applyUpd l u).filter isDirE = applyUpd (l.filter isDirE) u := by
  rw [applyUpd, applyUpd, List.filter_map]
  congr 1
  exact List.filter_congr (fun e _ => by
    simp only [Function.comp_apply, isDirE_updOne])

theorem checkForContent_applyUpd (cs : List Entry) (u : List (Name × List Entry)) :
    checkForContent (applyUpd cs u) = checkForContent cs := by
  simp only [checkForContent, names_applyUpd]
  have hfun : (isDirE ∘ updOne u) = isDirE := funext (fun e => isDirE_updOne u e)
  have h : (applyUpd cs u).any isDirE = cs.any isDirE := by
    rw [applyUpd, List.any_map, hfun]
  rw [h]

theorem orderedInsert_updOne (u : List (Name × List Entry)) (a : Entry) :
    ∀ l : List Entry,
      List.orderedInsert entryLeP (updOne u a) (applyUpd l u)
        = applyUpd (List.orderedInsert entryLeP a l) u := by
  intro l
  induction l with
  | nil => rfl
  | cons b rest ih =>
    simp only [applyUpd, List.map_cons, List.orderedInsert]
    by_cases h : entryLeP a b
    · rw [if_pos (by simpa [entryLeP, entryName_updOne] using h), if_pos h]
      rfl
    · rw [if_neg (by simpa [entryLeP, entryName_updOne] using h), if_neg h]
      simp only [List.map_cons]
      exact congrArg _ ih

theorem sortEntries_applyUpd (l : List Entry) (u : List (Name × List Entry)) :
    sortEntries (applyUpd l u) = applyUpd (sortEntries l) u := by
  induction l with
  | nil => rfl
  | cons e rest ih =>
    simp only [applyUpd, List.map_cons, sortEntries, List.insertionSort] at *
    rw [ih]
    exact orderedInsert_updOne u e _

theorem applyUpd_cons_irrel (n : Name) (c : List Entry)
    (u : List (Name × List Entry)) :
    ∀ l : List Entry, (∀ e ∈ l, entryName e ≠ n) →
      applyUpd l ((n, c) :: u) = applyUpd l u := by
  intro l hl
  rw [applyUpd, applyUpd]
  refine List.map_congr_left (fun e he => ?_)
  cases e with
  | file m => rfl
  | dir m cs =>
    have hmn : n ≠ m := fun h => (hl _ he) (by simp [entryName, h])
    simp only [updOne, lookupUpd, if_neg hmn]

end ZeidyD

namespace ZeidyD

/-! Leaf processing and the listing it leaves behind. -/

/-- The lenient leaf handler either leaves the listing untouched or renames
the single mismatched MP3 to the expected companion name. -/
theorem processLeafL_files_cases (o : RenameOracle) (p : List Name)
    (cs : List Entry) :
    (processLeafL o p cs).files = cs ∨
    ∃ P M : Name, (cs.map entryName).filter isPdfName = [P] ∧
      (cs.map entryName).filter isMp3Name = [M] ∧ M ≠ expectedMp3Name P ∧
      (processLeafL o p cs).files = renameEntry cs M (expectedMp3Name P) := by
  simp only [processLeafL]
  cases hpdfs : (cs.map entryName).filter isPdfName with
  | nil => left; rfl
  | cons a l =>
    cases l with
    | nil =>
      cases hmp3s : (cs.map entryName).filter isMp3Name with
      | nil => left; rfl
      | cons b l2 =>
        cases l2 with
        | nil =>
          by_cases hb : b = expectedMp3Name a
          · left; simp [hb]
          · cases ho : o p b (expectedMp3Name a) with
            | true =>
              right
              exact ⟨a, b, rfl, rfl, hb, by simp [hb, ho]⟩
            | false => left; simp [hb, ho]
        | cons c l3 => left; rfl
    | cons bb ll => left; rfl

/-- Renaming with a fresh target name substitutes exactly that name in the
listing's name sequence. -/
theorem renameEntry_map_names (cs : List Entry) (M e : Name)
    (hnotin : (cs.map entryName).contains e = false) :
    (renameEntry cs M e).map entryName
      = (cs.map entryName).map (fun x => if x = M then e else x) := by
  rw [renameEntry, if_neg (by rw [hnotin]; exact Bool.noConfusion)]
  rw [List.map_map, List.map_map]
  refine List.map_congr_left (fun x _ => ?_)
  simp only [Function.comp_apply]
  by_cases hx : entryName x = M
  · rw [if_pos hx, if_pos hx]
    cases x <;> rfl
  · rw [if_neg hx, if_neg hx]

end ZeidyD

namespace ZeidyD

/-- Substituting one name for another does not change a filter that rejects
both names. -/
theorem filter_names_subst (M e : Name) (q : Name → Bool)
    (hqM : q M = false) (hqe : q e = false) :
    ∀ l : List Name, (l.map (fun x => if x = M then e else x)).filter q = l.filter q := by
  intro l
  induction l with
  | nil => rfl
  | cons x rest ih =>
    simp only [List.map_cons, List.filter_cons]
    by_cases hx : x = M
    · rw [if_pos hx, hqe, hx, hqM]
      exact ih
    · rw [if_neg hx]
      rw [ih]

end ZeidyD

namespace ZeidyD

/-- Leaf stability: rescanning the listing a lenient leaf pass leaves behind
classifies it as a leaf again and computes the same manifest value, provided
the leaf is idempotence-friendly. -/
theorem processLeaf_stable (o₁ o : RenameOracle) (p₁ p : List Name)
    (cs : List Entry) (hok : leafIdemOk cs = true)
    (hc : checkForContent cs = true) :
    checkForContent (processLeafL o₁ p₁ cs).files = true ∧
    (processLeafL o p ((processLeafL o₁ p₁ cs).files)).value
      = (processLeafL o₁ p₁ cs).value := by
  rcases processLeafL_files_cases o₁ p₁ cs with hsame | ⟨P, M, hpdfs, hmp3s, hMne, hren⟩
  · rw [hsame]
    exact ⟨hc, by rw [processLeafL_value, processLeafL_value]⟩
  · have hexp3 : isMp3Name (expectedMp3Name P) = true := by
      simp only [leafIdemOk, hpdfs, hmp3s] at hok
      rw [if_neg hMne] at hok
      exact hok
    have hM3 : isMp3Name M = true :=
      (List.mem_filter.mp (hmp3s ▸ List.mem_cons_self _ _)).2
    have hPp : isPdfName P = true :=
      (List.mem_filter.mp (hpdfs ▸ List.mem_cons_self _ _)).2
    have hMpdf : isPdfName M = false := not_isPdfName_of_isMp3Name _ hM3
    have hepdf : isPdfName (expectedMp3Name P) = false :=
      not_isPdfName_of_isMp3Name _ hexp3
    have hnotin : ((cs.map entryName).contains (expectedMp3Name P)) = false := by
      cases hcon : (cs.map entryName).contains (expectedMp3Name P) with
      | false => rfl
      | true =>
        exfalso
        have hmem : expectedMp3Name P ∈ cs.map entryName := List.elem_iff.mp hcon
        have hmem2 : expectedMp3Name P ∈ (cs.map entryName).filter isMp3Name :=
          List.mem_filter.mpr ⟨hmem, hexp3⟩
        rw [hmp3s] at hmem2
        have he2 : expectedMp3Name P = M := by simpa using hmem2
        exact hMne he2.symm
    have hnames : ((processLeafL o₁ p₁ cs).files).map entryName
        = (cs.map entryName).map (fun x => if x = M then expectedMp3Name P else x) := by
      rw [hren]
      exact renameEntry_map_names cs M (expectedMp3Name P) hnotin
    have hpdf' : (((processLeafL o₁ p₁ cs).files).map entryName).filter isPdfName
        = [P] := by
      rw [hnames, filter_names_subst M (expectedMp3Name P) isPdfName hMpdf hepdf, hpdfs]
    constructor
    · have hPmem' : P ∈ ((processLeafL o₁ p₁ cs).files).map entryName :=
        List.mem_of_mem_filter (hpdf' ▸ List.mem_cons_self _ _)
      have hany : (((processLeafL o₁ p₁ cs).files).map entryName).any isPdfName
          = true := List.any_eq_true.mpr ⟨P, hPmem', hPp⟩
      simp [checkForContent, hany]
    · rw [processLeafL_value, processLeafL_value, hpdf', hpdfs]

/-! Goodness and well-formedness distribute over members. -/

theorem allIdemOk_mem : ∀ cs : List Entry, allIdemOk cs = true →
    ∀ e ∈ cs, idemE e = true := by
  intro cs
  induction cs with
  | nil => intro _ e he; simp at he
  | cons a rest ih =>
    intro h e he
    simp only [allIdemOk, Bool.and_eq_true] at h
    rcases List.mem_cons.mp he with he' | he'
    · rw [he']; exact h.1
    · exact ih h.2 e he'

theorem wfFS_mem_wfE : ∀ cs : List Entry, wfFS cs = true →
    ∀ e ∈ cs, wfE e = true := by
  intro cs
  induction cs with
  | nil => intro _ e he; simp at he
  | cons a rest ih =>
    intro h e he
    simp only [wfFS, Bool.and_eq_true] at h
    rcases List.mem_cons.mp he with he' | he'
    · rw [he']; exact h.1.2
    · exact ih h.2 e he'

theorem wfFS_nodup : ∀ cs : List Entry, wfFS cs = true →
    (cs.map entryName).Nodup := by
  intro cs
  induction cs with
  | nil => intro _; simp
  | cons a rest ih =>
    intro h
    simp only [wfFS, Bool.and_eq_true] at h
    rw [List.map_cons, List.nodup_cons]
    refine ⟨?_, ih h.2⟩
    intro hmem
    have hcon := h.1.1
    rw [Bool.not_eq_true'] at hcon
    rw [← List.elem_iff] at hmem
    have hc2 : (rest.map entryName).contains (entryName a) = true := hmem
    exact Bool.noConfusion (hc2.symm.trans hcon)

end ZeidyD

namespace ZeidyD

theorem applyUpd_cons (x : Entry) (l : List Entry)
    (u : List (Name × List Entry)) :
    applyUpd (x :: l) u = updOne u x :: applyUpd l u := rfl

theorem updOne_head (n : Name) (f : List Entry) (u : List (Name × List Entry))
    (cs : List Entry) : updOne ((n, f) :: u) (Entry.dir n cs) = Entry.dir n f := by
  simp [updOne, lookupUpd]

/-- Rescanning the tree a lenient scan leaves behind reproduces the manifest,
directory by directory, for idempotence-friendly well-formed trees. -/
theorem goL_idem :
    ∀ (N : Nat) (L : List Entry), sizeOf L ≤ N →
      (∀ e ∈ L, isDirE e = true) →
      ((L.map entryName).Nodup) →
      (∀ e ∈ L, idemE e = true) →
      (∀ e ∈ L, wfE e = true) →
      ∀ (o₁ o : RenameOracle) (p₁ p : List Name) (d₁ d : Nat),
        (goL o p d (applyUpd L (goL o₁ p₁ d₁ L).upds)).node
          = (goL o₁ p₁ d₁ L).node := by
  intro N
  induction N with
  | zero =>
    intro L hl
    cases L with
    | nil =>
      intro _ _ _ _ o₁ o p₁ p d₁ d
      simp [applyUpd, goL_nil]
    | cons e rest =>
      exfalso
      simp only [List.cons.sizeOf_spec] at hl
      omega
  | succ N ih =>
    intro L hl hdirs hnodup hidem hwf o₁ o p₁ p d₁ d
    cases L with
    | nil => simp [applyUpd, goL_nil]
    | cons e rest =>
      have hrest : sizeOf rest ≤ N := by
        simp only [List.cons.sizeOf_spec] at hl
        omega
      have hrestdirs : ∀ e' ∈ rest, isDirE e' = true :=
        fun e' he' => hdirs e' (List.mem_cons_of_mem _ he')
      have hrestidem : ∀ e' ∈ rest, idemE e' = true :=
        fun e' he' => hidem e' (List.mem_cons_of_mem _ he')
      have hrestwf : ∀ e' ∈ rest, wfE e' = true :=
        fun e' he' => hwf e' (List.mem_cons_of_mem _ he')
      have hrestnodup : (rest.map entryName).Nodup := by
        rw [List.map_cons, List.nodup_cons] at hnodup
        exact hnodup.2
      cases e with
      | file m =>
        exact absurd (hdirs _ (List.mem_cons_self _ _)) (by simp [isDirE])
      | dir n cs =>
        have hidem_head := hidem _ (List.mem_cons_self _ _)
        simp only [idemE, Bool.and_eq_true] at hidem_head
        have hwf_head := hwf _ (List.mem_cons_self _ _)
        simp only [wfE] at hwf_head
        have hname_rest : ∀ e' ∈ rest, entryName e' ≠ n := by
          intro e' he' heq
          simp only [List.map_cons, entryName, List.nodup_cons] at hnodup
          exact hnodup.1 (heq ▸ List.mem_map_of_mem entryName he')
        cases hc : checkForContent cs with
        | true =>
          have hstab := processLeaf_stable o₁ o (p₁ ++ [n]) (p ++ [n]) cs
            hidem_head.1 hc
          simp only [goL_leaf o₁ p₁ d₁ n cs rest hc]
          rw [applyUpd_cons, updOne_head,
            applyUpd_cons_irrel n _ _ rest hname_rest]
          simp only [goL_leaf o p d n _ _ hstab.1]
          rw [hstab.2, ih rest hrest hrestdirs hrestnodup hrestidem hrestwf
            o₁ o p₁ p d₁ d]
        | false =>
          have hsubsize : sizeOf (sortEntries (cs.filter isDirE)) ≤ N := by
            rw [sizeOf_sortEntries]
            have h2 := sizeOf_filter_le isDirE cs
            simp only [List.cons.sizeOf_spec, Entry.dir.sizeOf_spec] at hl
            omega
          have hsubdirs : ∀ e' ∈ sortEntries (cs.filter isDirE), isDirE e' = true := by
            intro e' he'
            exact (List.mem_filter.mp
              ((List.perm_insertionSort entryLeP (cs.filter isDirE)).mem_iff.mp he')).2
          have hsubmem : ∀ e' ∈ sortEntries (cs.filter isDirE), e' ∈ cs := by
            intro e' he'
            exact List.mem_of_mem_filter
              ((List.perm_insertionSort entryLeP (cs.filter isDirE)).mem_iff.mp he')
          have hsubnodup : ((sortEntries (cs.filter isDirE)).map entryName).Nodup := by
            have h1 : ((cs.filter isDirE).map entryName).Nodup :=
              List.Nodup.sublist ((List.filter_sublist cs).map entryName)
                (wfFS_nodup cs hwf_head)
            exact (((List.perm_insertionSort entryLeP
              (cs.filter isDirE)).map entryName).nodup_iff).mpr h1
          have hsubidem : ∀ e' ∈ sortEntries (cs.filter isDirE), idemE e' = true :=
            fun e' he' => allIdemOk_mem cs hidem_head.2 e' (hsubmem e' he')
          have hsubwf : ∀ e' ∈ sortEntries (cs.filter isDirE), wfE e' = true :=
            fun e' he' => wfFS_mem_wfE cs hwf_head e' (hsubmem e' he')
          simp only [goL_branch o₁ p₁ d₁ n cs rest hc]
          rw [applyUpd_cons, updOne_head,
            applyUpd_cons_irrel n _ _ rest hname_rest]
          have hc' : checkForContent (applyUpd cs
              (goL o₁ (p₁ ++ [n]) (d₁ + 1) (sortEntries (cs.filter isDirE))).upds)
              = false := by
            rw [checkForContent_applyUpd]
            exact hc
          simp only [goL_branch o p d n _ _ hc']
          rw [filter_isDirE_applyUpd, sortEntries_applyUpd]
          rw [ih (sortEntries (cs.filter isDirE)) hsubsize hsubdirs hsubnodup
            hsubidem hsubwf o₁ o (p₁ ++ [n]) (p ++ [n]) (d₁ + 1) (d + 1)]
          rw [ih rest hrest hrestdirs hrestnodup hrestidem hrestwf o₁ o p₁ p d₁ d]

end ZeidyD


namespace ZeidyD

/-- C9 (amended): rescanning the tree left by a lenient scan reproduces the
manifest byte for byte, for well-formed trees in which every leaf's expected
companion name is itself MP3-named (true whenever each primary name's only
`".pdf"` occurrence is its final extension — the counterexample's
`a.pdf.pdf` shows the restriction is necessary). -/
theorem C9_idempotent (o₁ o₂ : RenameOracle) (es : List Entry)
    (hok : allIdemOk es = true) (hwf : wfFS es = true) :
    serializeTop (scanL o₂ [] 0 (scanFsL o₁ es)).node
      = serializeTop (scanL o₁ [] 0 es).node := by
  simp only [scanFsL, scanL]
  rw [filter_isDirE_applyUpd, sortEntries_applyUpd]
  refine congrArg serializeTop ?_
  have hdirs : ∀ e ∈ sortEntries (es.filter isDirE), isDirE e = true := by
    intro e' he'
    exact (List.mem_filter.mp
      ((List.perm_insertionSort entryLeP (es.filter isDirE)).mem_iff.mp he')).2
  have hmem : ∀ e ∈ sortEntries (es.filter isDirE), e ∈ es := by
    intro e' he'
    exact List.mem_of_mem_filter
      ((List.perm_insertionSort entryLeP (es.filter isDirE)).mem_iff.mp he')
  have hnodup : ((sortEntries (es.filter isDirE)).map entryName).Nodup := by
    have h1 : ((es.filter isDirE).map entryName).Nodup :=
      List.Nodup.sublist ((List.filter_sublist es).map entryName)
        (wfFS_nodup es hwf)
    exact (((List.perm_insertionSort entryLeP
      (es.filter isDirE)).map entryName).nodup_iff).mpr h1
  exact goL_idem (sizeOf (sortEntries (es.filter isDirE))) _ le_rfl hdirs hnodup
    (fun e' he' => allIdemOk_mem es hok e' (hmem e' he'))
    (fun e' he' => wfFS_mem_wfE es hwf e' (hmem e' he'))
    o₁ o₂ [] [] 0 0

/-- C9 witness: a tree whose single leaf has primary `x.pdf` and mismatched
companion `y.mp3` — after the first run's rename, the second run produces the
same bytes. -/
theorem C9_witness :
    serializeTop (scanL (fun _ _ _ => true) [] 0
        (scanFsL (fun _ _ _ => true)
          [Entry.dir ("d".toList)
            [Entry.file ("x.pdf".toList), Entry.file ("y.mp3".toList)]])).node
      = serializeTop (scanL (fun _ _ _ => true) [] 0
          [Entry.dir ("d".toList)
            [Entry.file ("x.pdf".toList), Entry.file ("y.mp3".toList)]]).node :=
  C9_idempotent (fun _ _ _ => true) (fun _ _ _ => true)
    [Entry.dir ("d".toList) [Entry.file ("x.pdf".toList), Entry.file ("y.mp3".toList)]]
    (by decide) (by decide)

/-- C9 counterexample: with the leaf listing `b.mp3, a.pdf.pdf`, the first run
renames `b.mp3` to `a.mp3.pdf`; the second run then sees two PDF-matching
names and stores `a.mp3.pdf`, so the two manifests differ byte-wise. -/
theorem C9_counterexample :
    serializeTop (scanL (fun _ _ _ => true) [] 0
        (scanFsL (fun _ _ _ => true)
          [Entry.dir ("d".toList)
            [Entry.file ("b.mp3".toList), Entry.file ("a.pdf.pdf".toList)]])).node
      ≠ serializeTop (scanL (fun _ _ _ => true) [] 0
          [Entry.dir ("d".toList)
            [Entry.file ("b.mp3".toList), Entry.file ("a.pdf.pdf".toList)]]).node := by
  have h1 : scanFsL (fun _ _ _ => true)
      [Entry.dir ("d".toList)
        [Entry.file ("b.mp3".toList), Entry.file ("a.pdf.pdf".toList)]]
      = [Entry.dir ("d".toList)
          [Entry.file ("a.mp3.pdf".toList), Entry.file ("a.pdf.pdf".toList)]] := by
    rw [scanFsL, scanL]
    rw [show sortEntries (([Entry.dir ("d".toList)
        [Entry.file ("b.mp3".toList), Entry.file ("a.pdf.pdf".toList)]]).filter isDirE)
        = [Entry.dir ("d".toList)
            [Entry.file ("b.mp3".toList), Entry.file ("a.pdf.pdf".toList)]] from by decide]
    rw [goL_leaf _ _ _ _ _ _ (by decide), goL_nil]
    decide
  rw [h1]
  simp only [scanL]
  rw [show sortEntries (([Entry.dir ("d".toList)
      [Entry.file ("a.mp3.pdf".toList), Entry.file ("a.pdf.pdf".toList)]]).filter isDirE)
      = [Entry.dir ("d".toList)
          [Entry.file ("a.mp3.pdf".toList), Entry.file ("a.pdf.pdf".toList)]] from by decide]
  rw [show sortEntries (([Entry.dir ("d".toList)
      [Entry.file ("b.mp3".toList), Entry.file ("a.pdf.pdf".toList)]]).filter isDirE)
      = [Entry.dir ("d".toList)
          [Entry.file ("b.mp3".toList), Entry.file ("a.pdf.pdf".toList)]] from by decide]
  rw [goL_leaf _ _ _ _ _ _ (by decide), goL_leaf _ _ _ _ _ _ (by decide),
    goL_nil]
  decide

end ZeidyD
